import Mathlib

/-!
Verification of the `hashmap` library (src/hashmap.c, src/hashmap.h).

The C code stores entries (key copies with a cached hash and an inline
payload) in one ordered entry store (a doubly linked list supplied by the
external `liblist` collaborator), together with an array of bucket slots,
each slot holding an iterator to the first entry of that bucket's
contiguous run inside the store.

Shallow embedding conventions:
  * `size_t` arithmetic is `Nat` reduced modulo `2 ^ 64` where the C code
    can wrap (the hash computation).  Keys are byte lists (`List Nat`);
    byte-for-byte `strcmp` equality is list equality.
  * An `Entry` carries an `id : Nat`, the model of the entry's address:
    it is allocated from the map's `next_id` counter and never reused, so
    pointer identity of `struct entry` / `struct hashmap_pair` is id
    equality.  The inline payload bytes are never inspected by any claim
    and are not modelled; neither is the `element_size > SIZE_MAX -
    sizeof(struct entry)` guard of `entry_new`, which only concerns the
    payload size.
  * A list iterator is modelled by the id of the entry it references;
    the end sentinel (`list_end`, and the `NULL` iterator a null map
    yields) is `none`.
  * Bucket slots hold `Option Nat` (entry id or empty); `struct list_iter
    **buckets` with `num_buckets` is `buckets : List (Option Nat)` whose
    length is the bucket count.
  * `float` values (`max_load_factor`, load-factor arithmetic) are
    modelled as exact rationals.  Every concrete value appearing in the
    claims (0.25, 0.5, 1.0, 4/5, 11/2, ...) is exactly representable in
    IEEE single precision and the operations performed on them are exact,
    so model and C agree on all inputs the theorems below evaluate.
    The C cast `(size_t)f` of a nonnegative float is rational floor.
  * Heap allocation success is an explicit oracle: a `List Bool` plan,
    one entry consumed per allocation (`realloc` of the bucket array,
    `strdup` of the key, `calloc` of the entry), an exhausted plan
    meaning success.
  * `liblist` is not part of this repository; it is modelled from the
    spec's collaborator contract (ordered store, begin/end, next,
    insert at a position, O(1) splice relocation of a node to a new
    position, erase with destructor).  `list_splice(pos, it)` with the
    empty-slot `NULL` position leaves the node where it is; this is the
    only reading under which `hashmap_insert`'s placement step ("insert
    the new entry at the front of the bucket run") and `hashmap_rehash`'s
    re-threading pass behave as the code's comments and tests describe.
-/

/-- Wraparound modulus of `size_t` arithmetic. -/
def W64 : Nat := 2 ^ 64

/-- Value of `SIZE_MAX`. -/
def SIZE_MAX : Nat := W64 - 1

/-- Value of `BUCKET_COUNT_INITIAL` in src/hashmap.c. -/
def BUCKET_COUNT_INITIAL : Nat := 5

/-- Default value of `BUCKET_COUNT_MAXIMUM` (`SSIZE_MAX`). -/
def BUCKET_COUNT_MAXIMUM : Nat := 2 ^ 63 - 1

/-- Default value of `MAP_SIZE_MAXIMUM` (`SIZE_MAX`). -/
def MAP_SIZE_MAXIMUM : Nat := SIZE_MAX

/-- Width in bytes of `struct list_iter *`, used by the allocation-size
overflow guard of `impl_alloc_buckets`. -/
def PTR_SIZE : Nat := 8

/-- The djb2 hash of src/hashmap.c (`hash_of`): `hash = hash * 33 + c`
starting from 5381, in `size_t` arithmetic.  Key bytes are taken at their
non-negative character values (all keys in the claims are ASCII, where
signed and unsigned `char` agree). -/
def hash_of (key : List Nat) : Nat :=
  key.foldl (fun h c => ((h <<< 5) + h + c) % W64) 5381

/-- A live entry of the map: model of `struct entry`.  `id` models the
entry's address (allocation identity), `hash` the cached key hash,
`key` the owned key copy. -/
structure Entry where
  id : Nat
  hash : Nat
  key : List Nat
  deriving DecidableEq

/-- Model of `struct hashmap`: the configurable maximum load factor, the
ordered entry store, the bucket slot array, and the allocation counter
that hands out entry identities. -/
structure Hashmap where
  max_load_factor : ℚ
  entries : List Entry
  buckets : List (Option Nat)
  next_id : Nat
  deriving DecidableEq

/-- Error codes the C functions report through `errno`. -/
inductive CErr where
  | EINVAL
  | ENOMEM
  | EOVERFLOW
  deriving DecidableEq

/-- Allocation oracle: pop one success bit (an exhausted plan means the
allocation succeeds). -/
def allocStep (plan : List Bool) : Bool × List Bool :=
  match plan with
  | [] => (true, [])
  | b :: rest => (b, rest)

/-- Fixed capacity table `primes` of src/hashmap.c. -/
def primes : List Nat :=
  [5, 11, 23,
   47, 53, 97,
   193, 389, 769,
   1543, 3079, 6151,
   12289, 24593, 49157,
   98317, 196613, 393241,
   786433, 1572869, 3145739,
   6291469, 12582917, 25165843,
   50331653, 100663319, 201326611,
   402653189, 805306457, 1610612741]

/-- Loop body of `impl_bucket_count_ideal`: step through the table while
the result is still below `n`. -/
def bucketCountLoop (n : Nat) : Nat → List Nat → Nat
  | ret, [] => ret
  | ret, p :: ps => if ret < n then bucketCountLoop n p ps else ret

/-- Transcription of `impl_bucket_count_ideal`: the smallest capacity in
the table that is at least `n`, starting from `BUCKET_COUNT_INITIAL` and
saturating at the table's last element. -/
def impl_bucket_count_ideal (n : Nat) : Nat :=
  bucketCountLoop n BUCKET_COUNT_INITIAL primes

/-- Exact rational division, written through `Rat.divInt` (numerator and
denominator cross-multiplication) so that concrete map states evaluate
inside the kernel; `qdiv_eq_div` below proves it is division on ℚ. -/
def qdiv (a b : ℚ) : ℚ := Rat.divInt (a.num * (b.den : ℤ)) (b.num * (a.den : ℤ))

/-- Exact rational multiplication through `Rat.divInt`; `qmul_eq_mul`
below proves it is multiplication on ℚ. -/
def qmul (a b : ℚ) : ℚ := Rat.divInt (a.num * b.num) ((a.den : ℤ) * (b.den : ℤ))

/-- Ceiling of an exact rational (`ceilf` on the exactly represented
values); `qceil_eq_ceil` below proves it is the ceiling on ℚ. -/
def qceil (q : ℚ) : ℤ := -((-q.num).fdiv (q.den : ℤ))

/-- The float constant 0.25 (`lower_bound` in the C source). -/
def qFourth : ℚ := Rat.divInt 1 4

/-- The float-precision bound `1 << FLT_MANT_DIG` = 2 ^ 24 of
`impl_rehash_if_needed`. -/
def FLT_EXACT_MAX : ℚ := 16777216

/-- The C cast `(size_t)f` applied to a (nonnegative) rational:
truncation toward zero. -/
def castSizeT (q : ℚ) : Nat := (q.num.tdiv (q.den : ℤ)).toNat

/-- Transcription of `bucket_of`: `hash % num_buckets`. -/
def bucket_of (nb hash : Nat) : Nat := hash % nb

/-- Boolean test that an entry's hash places it in bucket `b` of a
`nb`-bucket map. -/
def inB (nb b : Nat) (e : Entry) : Bool := bucket_of nb e.hash = b

/-- Boolean test that an entry's id differs from `i`. -/
def idNot (i : Nat) (x : Entry) : Bool := x.id ≠ i

/-- Boolean test that an entry's id equals `i` (iterator resolution). -/
def idIs (i : Nat) (x : Entry) : Bool := x.id = i

/-- Remove the entry with the given id from the store (the node-detach
part of `list_erase`; ids are unique in any reachable state). -/
def removeById (l : List Entry) (i : Nat) : List Entry :=
  l.filter (idNot i)

/-- Insert entry `e` directly before the entry whose id is `hid`
(the `list_splice` destination position). -/
def insertBeforeId (l : List Entry) (e : Entry) (hid : Nat) : List Entry :=
  l.takeWhile (idNot hid) ++ e :: l.dropWhile (idNot hid)

/-- Model of `list_splice(slot, it)` as used by src/hashmap.c: with an
empty slot (`NULL` position) the node stays where it is; otherwise the
node is relocated to directly before the slot's entry. -/
def spliceBefore (l : List Entry) (e : Entry) (slot : Option Nat) : List Entry :=
  match slot with
  | none => l
  | some hid => insertBeforeId (removeById l e.id) e hid

/-- Map-level constants and accessors. -/
def numBuckets (h : Hashmap) : Nat := h.buckets.length

/-- Transcription of `hashmap_new` under successful allocation: load
factor 1.0, an empty store, `BUCKET_COUNT_INITIAL` empty bucket slots. -/
def hashmap_new : Hashmap :=
  { max_load_factor := 1
    entries := []
    buckets := List.replicate BUCKET_COUNT_INITIAL none
    next_id := 0 }

/-- Transcription of `hashmap_size` (null map yields 0). -/
def hashmap_size (h : Option Hashmap) : Nat :=
  match h with
  | none => 0
  | some h => h.entries.length

/-- Transcription of `hashmap_empty`. -/
def hashmap_empty (h : Option Hashmap) : Bool :=
  hashmap_size h = 0

/-- Transcription of `hashmap_bucket_count` (null map yields 0). -/
def hashmap_bucket_count (h : Option Hashmap) : Nat :=
  match h with
  | none => 0
  | some h => numBuckets h

/-- Transcription of `hashmap_max_bucket_count`. -/
def hashmap_max_bucket_count (h : Option Hashmap) : Nat :=
  match h with
  | none => 0
  | some _ => BUCKET_COUNT_MAXIMUM

/-- Transcription of `hashmap_max_load_factor` (null map yields 0). -/
def hashmap_max_load_factor (h : Option Hashmap) : ℚ :=
  match h with
  | none => 0
  | some h => h.max_load_factor

/-- Transcription of `hashmap_load_factor`: size divided by bucket
count (null map yields 0). -/
def hashmap_load_factor (h : Option Hashmap) : ℚ :=
  match h with
  | none => 0
  | some h => qdiv (h.entries.length : ℚ) (numBuckets h : ℚ)

/-- The walk of `hashmap_bucket_size` and `hashmap_cfind`: the suffix of
the store starting at the entry the bucket slot references. -/
def storeFrom (l : List Entry) (hid : Nat) : List Entry :=
  l.dropWhile (idNot hid)

/-- The contiguous run of bucket `b` walked from the slot's entry: the
walk stops at the first entry whose own bucket differs, or at store
end. -/
def bucketRun (h : Hashmap) (b : Nat) : List Entry :=
  match h.buckets.getD b none with
  | none => []
  | some hid => (storeFrom h.entries hid).takeWhile (inB (numBuckets h) b)

/-- Transcription of `hashmap_bucket_size` (null map or out-of-range
bucket index yields 0). -/
def hashmap_bucket_size (h : Option Hashmap) (bucket : Nat) : Nat :=
  match h with
  | none => 0
  | some h =>
    if bucket ≥ numBuckets h then 0
    else (bucketRun h bucket).length

/-- Loop of `hashmap_cfind`: walk the store suffix; stop (key not found)
at store end or at the first entry whose bucket differs from the target;
report the first entry whose cached hash equals the query hash and whose
key is byte-for-byte equal. -/
def findLoop (hsh b nb : Nat) (key : List Nat) : List Entry → Option Nat
  | [] => none
  | e :: rest =>
    if bucket_of nb e.hash = b then
      if hsh = e.hash ∧ key = e.key then some e.id
      else findLoop hsh b nb key rest
    else none

/-- Transcription of `hashmap_cfind` (a null map or null key yields the
end sentinel).  The result is the iterator: the id of the found entry,
or `none` for `hashmap_cend`. -/
def hashmap_cfind (h : Option Hashmap) (key : Option (List Nat)) : Option Nat :=
  match h, key with
  | none, _ => none
  | some _, none => none
  | some h, some key =>
    let hsh := hash_of key
    let b := bucket_of (numBuckets h) hsh
    match h.buckets.getD b none with
    | none => none
    | some hid => findLoop hsh b (numBuckets h) key (storeFrom h.entries hid)

/-- Transcription of `impl_alloc_buckets`: overflow guard on the byte
size, then `realloc` (one allocation-oracle step); on success the slot
array has the new size with every slot empty, on failure the map is
unchanged. -/
def impl_alloc_buckets (h : Hashmap) (n : Nat) (plan : List Bool) :
    Except CErr Unit × Hashmap × List Bool :=
  if n > SIZE_MAX / PTR_SIZE then (.error .EOVERFLOW, h, plan)
  else
    match allocStep plan with
    | (false, plan') => (.error .ENOMEM, h, plan')
    | (true, plan') =>
      (.ok (), { h with buckets := List.replicate n none }, plan')

/-- One step of the re-threading loop of `hashmap_rehash`: recompute the
entry's bucket from its key, splice the entry to the front of that
bucket's run, and make the slot reference it. -/
def rethreadStep (nb : Nat) (st : List Entry × List (Option Nat)) (e : Entry) :
    List Entry × List (Option Nat) :=
  let b := bucket_of nb (hash_of e.key)
  (spliceBefore st.1 e (st.2.getD b none), st.2.set b (some e.id))

/-- The re-threading pass of `hashmap_rehash`: walk every entry of the
store in (pre-pass) store order and re-thread it.  The C loop captures
`next` before splicing, and every splice moves its entry backwards (to
directly before an already processed run head), so the pass visits
exactly the original entries in their original order. -/
def rethread (h : Hashmap) : Hashmap :=
  let nb := numBuckets h
  let st := h.entries.foldl (rethreadStep nb) (h.entries, h.buckets)
  { h with entries := st.1, buckets := st.2 }

/-- Transcription of `hashmap_rehash`: early success if the requested
count does not exceed the current one; otherwise allocate the new slot
array (failure leaves everything unchanged) and re-thread every entry. -/
def hashmap_rehash (h : Hashmap) (buckets : Nat) (plan : List Bool) :
    Except CErr Unit × Hashmap × List Bool :=
  if buckets ≤ numBuckets h then (.ok (), h, plan)
  else
    match impl_alloc_buckets h buckets plan with
    | (.error e, h', plan') => (.error e, h', plan')
    | (.ok _, h', plan') => (.ok (), rethread h', plan')

/-- Transcription of `impl_rehash_if_needed`: float-precision guard on
`number_of_elements / max_load_factor`, then grow to the ideal capacity
for that quotient if it exceeds the current bucket count. -/
def impl_rehash_if_needed (h : Hashmap) (n : Nat) (plan : List Bool) :
    Except CErr Unit × Hashmap × List Bool :=
  let count : ℚ := qdiv (n : ℚ) h.max_load_factor
  if count > FLT_EXACT_MAX then (.error .EOVERFLOW, h, plan)
  else
    let required := impl_bucket_count_ideal (castSizeT count)
    if required ≤ numBuckets h then (.ok (), h, plan)
    else if required > BUCKET_COUNT_MAXIMUM then (.error .EOVERFLOW, h, plan)
    else hashmap_rehash h required plan

/-- Transcription of `hashmap_clear`: destroy every entry, reset every
bucket slot, keep the bucket count and configuration. -/
def hashmap_clear (h : Hashmap) : Hashmap :=
  { h with entries := [], buckets := List.replicate (numBuckets h) none }

/-- Transcription of `hashmap_max_load_factor_set`: clamp the argument
up to 0.25, store it, then rehash if the current element count now
requires more buckets.  Note the new factor is stored before the
fallible rehash. -/
def hashmap_max_load_factor_set (h : Hashmap) (z : ℚ) (plan : List Bool) :
    Except CErr Unit × Hashmap × List Bool :=
  let z' := if z < qFourth then qFourth else z
  let h' := { h with max_load_factor := z' }
  impl_rehash_if_needed h' (hashmap_size (some h')) plan

/-- Transcription of `hashmap_reserve`: compute the current capacity
`ceil(num_buckets * max_load_factor)`; a request at or below it is a
successful no-op, otherwise delegate to the growth path. -/
def hashmap_reserve (h : Hashmap) (n : Nat) (plan : List Bool) :
    Except CErr Unit × Hashmap × List Bool :=
  let capacity := (qceil (qmul (numBuckets h : ℚ) h.max_load_factor)).toNat
  if n ≤ capacity then (.ok (), h, plan)
  else impl_rehash_if_needed h n plan

/-- Result of `hashmap_insert` (`struct hashmap_insert_result`, plus the
`errno` the call sets on failure): `pair` is the address (entry id) of
the key's pair, `none` on failure. -/
structure InsertRet where
  inserted : Bool
  pair : Option Nat
  errno : Option CErr
  deriving DecidableEq

/-- Transcription of `hashmap_insert` (on a non-null map): return the
existing pair if the key is present; guard the total size; grow if
needed; allocate the entry (`strdup` + `calloc`, two oracle steps); put
the new entry at the store's tail and splice it to the front of its
bucket's run, making the slot reference it. -/
def hashmap_insert (h : Hashmap) (key : Option (List Nat)) (plan : List Bool) :
    InsertRet × Hashmap × List Bool :=
  match key with
  | none => ({ inserted := false, pair := none, errno := some .EINVAL }, h, plan)
  | some key =>
    match hashmap_cfind (some h) (some key) with
    | some i => ({ inserted := false, pair := some i, errno := none }, h, plan)
    | none =>
      if h.entries.length ≥ MAP_SIZE_MAXIMUM then
        ({ inserted := false, pair := none, errno := some .EOVERFLOW }, h, plan)
      else
        match impl_rehash_if_needed h (h.entries.length + 1) plan with
        | (.error e, h', plan') =>
          ({ inserted := false, pair := none, errno := some e }, h', plan')
        | (.ok _, h', plan') =>
          let (a1, plan2) := allocStep plan'
          let (a2, plan3) := allocStep plan2
          if a1 = false then
            ({ inserted := false, pair := none, errno := some .ENOMEM }, h', plan2)
          else if a2 = false then
            ({ inserted := false, pair := none, errno := some .ENOMEM }, h', plan3)
          else
            let e : Entry := { id := h'.next_id, hash := hash_of key, key := key }
            let nb := numBuckets h'
            let b := bucket_of nb e.hash
            let es := spliceBefore (h'.entries ++ [e]) e (h'.buckets.getD b none)
            ({ inserted := true, pair := some e.id, errno := none },
             { h' with
               entries := es
               buckets := h'.buckets.set b (some e.id)
               next_id := h'.next_id + 1 },
             plan3)

/-- Transcription of `hashmap_erase` (on a non-null map): resolve the
iterator (`list_at`); fail with `EINVAL` if it references no live entry;
recompute the entry's bucket from its key; if the slot references this
very entry, advance the slot to the next entry in store order when that
entry still belongs to the same bucket and empty the slot otherwise;
finally detach and destroy the entry. -/
def hashmap_erase (h : Hashmap) (it : Option Nat) : Except CErr Unit × Hashmap :=
  match it.bind (fun i => h.entries.find? (idIs i)) with
  | none => (.error .EINVAL, h)
  | some e =>
    let nb := numBuckets h
    let b := bucket_of nb (hash_of e.key)
    let bs :=
      if h.buckets.getD b none = some e.id then
        match (storeFrom h.entries e.id).tail.head? with
        | some ne =>
          if bucket_of nb ne.hash = b then h.buckets.set b (some ne.id)
          else h.buckets.set b none
        | none => h.buckets.set b none
      else h.buckets
    (.ok (), { h with entries := removeById h.entries e.id, buckets := bs })

/-! Contiguity of a predicate's elements inside a list: there is a single
maximal block.  The Boolean form is computable; the existential form is
what the surgery proofs manipulate. -/

def contigB (p : Entry → Bool) (l : List Entry) : Bool :=
  ((l.dropWhile (fun e => !(p e))).dropWhile p).all (fun e => !(p e))

def IsContig (p : Entry → Bool) (l : List Entry) : Prop :=
  ∃ A B C, l = A ++ B ++ C ∧ (∀ x ∈ A, p x = false) ∧ (∀ x ∈ B, p x = true) ∧
    (∀ x ∈ C, p x = false)

/-! The per-bucket packaging invariant.  `pend` is the list of ids of the
entries a re-threading pass has not yet visited; with `pend = []` it is
exactly the bucket-run invariant of the spec: the slot (if non-empty)
references the first entry of the bucket, the bucket's entries form one
contiguous run starting there, and an empty slot means an empty bucket. -/

def BPack (nb b : Nat) (pend : List Nat) (l : List Entry) (slot : Option Nat) : Prop :=
  match slot with
  | none => ∀ x ∈ l, bucket_of nb x.hash = b → x.id ∈ pend
  | some hid =>
    ∃ A hd B C, l = A ++ hd :: B ++ C ∧ hd.id = hid ∧
      bucket_of nb hd.hash = b ∧ hd.id ∉ pend ∧
      (∀ x ∈ A, bucket_of nb x.hash ≠ b) ∧
      (∀ x ∈ B, bucket_of nb x.hash = b ∧ x.id ∉ pend) ∧
      (∀ x ∈ C, bucket_of nb x.hash = b → x.id ∈ pend)

/-- The global well-formedness invariant of a map, decidable so that it
can be checked on concrete states: a positive bucket count; distinct
entry addresses; distinct keys; correctly cached hashes and ids below
the allocation counter; and for every bucket, the slot references the
first entry of that bucket in store order (or is empty when the bucket
is empty) while the bucket's entries are contiguous in the store. -/
def Valid (h : Hashmap) : Prop :=
  0 < numBuckets h ∧
  (h.entries.map (fun e => e.id)).Nodup ∧
  (h.entries.map (fun e => e.key)).Nodup ∧
  (∀ e ∈ h.entries, e.hash = hash_of e.key ∧ e.id < h.next_id) ∧
  (∀ b, b < numBuckets h →
    h.buckets.getD b none = (h.entries.find? (inB (numBuckets h) b)).map (fun e => e.id) ∧
    contigB (inB (numBuckets h) b) h.entries = true)

/-- Invariant of the re-threading pass of `hashmap_rehash`, between loop
iterations: `orig` is the store as the pass started, `cur` and `slots`
the current store and slot array, `S` the entries not yet visited (a
suffix of `orig`, still in their original relative order inside `cur`).
For every bucket, the already visited entries of that bucket form one
contiguous run headed by the slot's entry, with the unvisited ones after
it. -/
structure MidInv (nb : Nat) (orig cur : List Entry) (slots : List (Option Nat))
    (S : List Entry) : Prop where
  perm : List.Perm cur orig
  sub : List.Sublist S cur
  slen : slots.length = nb
  pack : ∀ b, b < nb → BPack nb b (S.map (fun x => x.id)) cur (slots.getD b none)

/-- The bucket count the growth path computes for `n` elements:
the capacity tier for `(float)n / max_load_factor`, truncated to
`size_t`. -/
def requiredBuckets (h : Hashmap) (n : Nat) : Nat :=
  impl_bucket_count_ideal (castSizeT (qdiv (n : ℚ) h.max_load_factor))

/-- The placement step of a successful `hashmap_insert`, after the growth
check: the new entry goes to the store's tail (`list_insert` at end),
is spliced to the front of its bucket's run, and becomes the slot's
referent. -/
def insertPlaced (h : Hashmap) (key : List Nat) : Hashmap :=
  let e : Entry := { id := h.next_id, hash := hash_of key, key := key }
  let nb := numBuckets h
  let b := bucket_of nb e.hash
  let es := spliceBefore (h.entries ++ [e]) e (h.buckets.getD b none)
  { h with
    entries := es
    buckets := h.buckets.set b (some e.id)
    next_id := h.next_id + 1 }

/-- The slot-array update of `hashmap_erase`: when the erased entry heads
its bucket, the slot advances to the next entry in store order if that
entry still belongs to the same bucket and is emptied otherwise. -/
def eraseBuckets (h : Hashmap) (e : Entry) : List (Option Nat) :=
  let nb := numBuckets h
  let b := bucket_of nb (hash_of e.key)
  if h.buckets.getD b none = some e.id then
    match (storeFrom h.entries e.id).tail.head? with
    | some ne =>
      if bucket_of nb ne.hash = b then h.buckets.set b (some ne.id)
      else h.buckets.set b none
    | none => h.buckets.set b none
  else h.buckets

instance exceptDecidableEq {e a : Type} [DecidableEq e] [DecidableEq a] :
    DecidableEq (Except e a) := fun x y =>
  match x, y with
  | .error u, .error v =>
    if h : u = v then isTrue (by rw [h]) else isFalse (fun hc => h (by injection hc))
  | .error _, .ok _ => isFalse (fun hc => Except.noConfusion hc)
  | .ok _, .error _ => isFalse (fun hc => Except.noConfusion hc)
  | .ok u, .ok v =>
    if h : u = v then isTrue (by rw [h]) else isFalse (fun hc => h (by injection hc))

instance validDecidable (h : Hashmap) : Decidable (Valid h) := by
  unfold Valid
  infer_instance

/-- A two-entry map: "Au" and "Ag" inserted into a fresh map. -/
def wMap : Hashmap :=
  (hashmap_insert (hashmap_insert hashmap_new (some [65, 117]) []).2.1
    (some [65, 103]) []).2.1

/-- The four-element map of the workbook scenario: "Au", "Ag", "Cu",
"Pt" inserted into a fresh map. -/
def h4map : Hashmap :=
  (hashmap_insert (hashmap_insert (hashmap_insert (hashmap_insert hashmap_new
    (some [65, 117]) []).2.1 (some [65, 103]) []).2.1
    (some [67, 117]) []).2.1 (some [80, 116]) []).2.1

/-- Eleven single-byte keys inserted after raising the maximum load
factor to 4: five buckets carrying eleven entries. -/
def hC8 : Hashmap :=
  ((List.range 11).map (fun i => [97 + i])).foldl
    (fun h k => (hashmap_insert h (some k) []).2.1)
    (hashmap_max_load_factor_set hashmap_new 4 []).2.1

/-- Five single-byte keys inserted into a fresh map: load factor 1 at
five buckets, so any lowering of the maximum load factor must grow. -/
def hC4 : Hashmap :=
  ((List.range 5).map (fun i => [97 + i])).foldl
    (fun h k => (hashmap_insert h (some k) []).2.1) hashmap_new

/-- The between-calls invariant as the specification states it: every
non-empty bucket slot references an entry of that very bucket which
heads the bucket's walked run; the run sits as one contiguous block
inside the store, bounded on both sides by entries of other buckets
(so no bucket's run is split by entries of another bucket) and it
contains every live entry of the bucket; and no two live entries carry
equal keys. -/
def ClaimInvariant (h : Hashmap) : Prop :=
  (∀ b, b < numBuckets h →
    (∀ hid, h.buckets.getD b none = some hid →
      ∃ e, (bucketRun h b).head? = some e ∧ e.id = hid ∧
        bucket_of (numBuckets h) e.hash = b) ∧
    (∃ A C, h.entries = A ++ bucketRun h b ++ C ∧
      (∀ x ∈ bucketRun h b, bucket_of (numBuckets h) x.hash = b) ∧
      (∀ x ∈ A, bucket_of (numBuckets h) x.hash ≠ b) ∧
      (∀ x ∈ C, bucket_of (numBuckets h) x.hash ≠ b)) ∧
    (∀ e ∈ h.entries, bucket_of (numBuckets h) e.hash = b → e ∈ bucketRun h b)) ∧
  (h.entries.map (fun e => e.key)).Nodup

/-! Basic facts about the Boolean predicates. -/

@[simp] theorem spliceBefore_none {l : List Entry} {e : Entry} :
    spliceBefore l e none = l := rfl

@[simp] theorem spliceBefore_some {l : List Entry} {e : Entry} {hid : Nat} :
    spliceBefore l e (some hid) = insertBeforeId (removeById l e.id) e hid := rfl

theorem idNot_true {i : Nat} {x : Entry} : idNot i x = true ↔ x.id ≠ i := by
  simp [idNot]

theorem idNot_false {i : Nat} {x : Entry} : idNot i x = false ↔ x.id = i := by
  simp [idNot]

theorem idIs_true {i : Nat} {x : Entry} : idIs i x = true ↔ x.id = i := by
  simp [idIs]

theorem inB_true {nb b : Nat} {e : Entry} : inB nb b e = true ↔ bucket_of nb e.hash = b := by
  simp [inB]

theorem inB_false {nb b : Nat} {e : Entry} : inB nb b e = false ↔ bucket_of nb e.hash ≠ b := by
  simp [inB]

/-! Generic list surgery lemmas used throughout. -/

theorem dropWhile_append_of_all {p : Entry → Bool} {l₁ l₂ : List Entry}
    (h : ∀ x ∈ l₁, p x = true) :
    (l₁ ++ l₂).dropWhile p = l₂.dropWhile p := by
  induction l₁ with
  | nil => rfl
  | cons a l ih =>
    have ha : p a = true := h a (by simp)
    simp only [List.cons_append, List.dropWhile_cons, ha, if_true]
    exact ih (fun x hx => h x (by simp [hx]))

theorem dropWhile_cons_of_false {p : Entry → Bool} {a : Entry} {l : List Entry}
    (h : p a = false) : (a :: l).dropWhile p = a :: l := by
  simp [List.dropWhile_cons, h]

theorem dropWhile_eq_nil_of_all {p : Entry → Bool} {l : List Entry}
    (h : ∀ x ∈ l, p x = true) : l.dropWhile p = [] := by
  induction l with
  | nil => rfl
  | cons a l ih =>
    simp only [List.dropWhile_cons, h a (by simp), if_true]
    exact ih (fun x hx => h x (by simp [hx]))

theorem takeWhile_append_of_all {p : Entry → Bool} {l₁ l₂ : List Entry} {a : Entry}
    (h : ∀ x ∈ l₁, p x = true) (ha : p a = false) :
    (l₁ ++ a :: l₂).takeWhile p = l₁ := by
  induction l₁ with
  | nil => simp [List.takeWhile_cons, ha]
  | cons c l ih =>
    have hc : p c = true := h c (by simp)
    simp only [List.cons_append, List.takeWhile_cons, hc, if_true]
    rw [ih (fun x hx => h x (by simp [hx]))]

theorem find?_prefix_false {p : Entry → Bool} {s t : List Entry}
    (h : ∀ x ∈ s, p x = false) : (s ++ t).find? p = t.find? p := by
  rw [List.find?_append]
  have : s.find? p = none := by
    rw [List.find?_eq_none]
    intro x hx
    simp [h x hx]
  simp [this]

theorem find?_eq_some_split {p : Entry → Bool} {l : List Entry} {a : Entry}
    (h : l.find? p = some a) :
    ∃ s t, l = s ++ a :: t ∧ (∀ x ∈ s, p x = false) ∧ p a = true := by
  induction l with
  | nil => simp at h
  | cons c l ih =>
    by_cases hc : p c = true
    · rw [List.find?_cons_of_pos _ hc] at h
      refine ⟨[], l, by simp [(Option.some.injEq _ _).mp h |>.symm], by simp, ?_⟩
      cases (Option.some.injEq _ _).mp h
      exact hc
    · have hc' : p c = false := by simpa using hc
      rw [List.find?_cons_of_neg _ (by simp [hc'])] at h
      obtain ⟨s, t, rfl, hs, hpa⟩ := ih h
      exact ⟨c :: s, t, rfl, by
        intro x hx
        rcases List.mem_cons.mp hx with rfl | hx
        · exact hc'
        · exact hs x hx, hpa⟩

theorem nodup_ids_split {A B : List Entry} {e : Entry}
    (hn : ((A ++ e :: B).map (fun x => x.id)).Nodup) :
    (∀ x ∈ A, x.id ≠ e.id) ∧ (∀ x ∈ B, x.id ≠ e.id) := by
  rw [List.map_append, List.map_cons] at hn
  have hd := List.disjoint_of_nodup_append hn
  have hB := (List.nodup_cons.mp hn.of_append_right).1
  constructor
  · intro x hx hxe
    exact hd (List.mem_map.mpr ⟨x, hx, hxe⟩) (by simp)
  · intro x hx hxe
    exact hB (hxe ▸ List.mem_map.mpr ⟨x, hx, rfl⟩)

theorem mem_split_nodup {l : List Entry} {e : Entry}
    (hn : (l.map (fun x => x.id)).Nodup) (he : e ∈ l) :
    ∃ A B, l = A ++ e :: B ∧ (∀ x ∈ A, x.id ≠ e.id) ∧ (∀ x ∈ B, x.id ≠ e.id) := by
  obtain ⟨A, B, rfl⟩ := List.append_of_mem he
  exact ⟨A, B, rfl, nodup_ids_split hn⟩

theorem removeById_of_all_ne {l : List Entry} {i : Nat}
    (h : ∀ x ∈ l, x.id ≠ i) : removeById l i = l := by
  unfold removeById
  exact List.filter_eq_self.mpr (fun x hx => idNot_true.mpr (h x hx))

theorem removeById_split {A B : List Entry} {e : Entry}
    (hA : ∀ x ∈ A, x.id ≠ e.id) (hB : ∀ x ∈ B, x.id ≠ e.id) :
    removeById (A ++ e :: B) e.id = A ++ B := by
  unfold removeById
  rw [List.filter_append, List.filter_cons]
  have : idNot e.id e = false := idNot_false.mpr rfl
  simp only [this, Bool.false_eq_true, if_false]
  rw [List.filter_eq_self.mpr (fun x hx => idNot_true.mpr (hA x hx)),
    List.filter_eq_self.mpr (fun x hx => idNot_true.mpr (hB x hx))]

theorem insertBeforeId_split {X Y : List Entry} {hd e : Entry}
    (hX : ∀ x ∈ X, x.id ≠ hd.id) :
    insertBeforeId (X ++ hd :: Y) e hd.id = X ++ e :: hd :: Y := by
  unfold insertBeforeId
  rw [takeWhile_append_of_all (fun x hx => idNot_true.mpr (hX x hx)) (idNot_false.mpr rfl),
    dropWhile_append_of_all (fun x hx => idNot_true.mpr (hX x hx)),
    dropWhile_cons_of_false (idNot_false.mpr rfl)]

theorem insertBeforeId_perm (l : List Entry) (e : Entry) (hid : Nat) :
    List.Perm (insertBeforeId l e hid) (e :: l) := by
  unfold insertBeforeId
  have := @List.perm_middle _ e (l.takeWhile (idNot hid)) (l.dropWhile (idNot hid))
  rw [List.takeWhile_append_dropWhile] at this
  exact this

theorem spliceBefore_perm {l : List Entry} {e : Entry} {slot : Option Nat}
    (hn : (l.map (fun x => x.id)).Nodup) (he : e ∈ l) :
    List.Perm (spliceBefore l e slot) l := by
  cases slot with
  | none => exact List.Perm.refl l
  | some hid =>
    obtain ⟨A, B, rfl, hA, hB⟩ := mem_split_nodup hn he
    show List.Perm (insertBeforeId (removeById (A ++ e :: B) e.id) e hid) _
    rw [removeById_split hA hB]
    exact (insertBeforeId_perm (A ++ B) e hid).trans List.perm_middle.symm

theorem all_not_of_forall_false {p : Entry → Bool} {l : List Entry}
    (h : ∀ x ∈ l, p x = false) : l.all (fun e => !(p e)) = true := by
  rw [List.all_eq_true]
  intro x hx
  simp [h x hx]

theorem isContig_of_contigB {p : Entry → Bool} {l : List Entry}
    (h : contigB p l = true) : IsContig p l := by
  refine ⟨l.takeWhile (fun e => !(p e)),
    (l.dropWhile (fun e => !(p e))).takeWhile p,
    (l.dropWhile (fun e => !(p e))).dropWhile p, ?_, ?_, ?_, ?_⟩
  · rw [List.append_assoc, List.takeWhile_append_dropWhile, List.takeWhile_append_dropWhile]
  · intro x hx
    have := List.mem_takeWhile_imp hx
    simpa using this
  · intro x hx
    exact List.mem_takeWhile_imp hx
  · intro x hx
    have := (List.all_eq_true.mp h) x hx
    simpa using this

theorem contigB_of_isContig {p : Entry → Bool} {l : List Entry}
    (h : IsContig p l) : contigB p l = true := by
  obtain ⟨A, B, C, rfl, hA, hB, hC⟩ := h
  unfold contigB
  have hA' : ∀ x ∈ A, (!(p x)) = true := fun x hx => by simp [hA x hx]
  cases B with
  | nil =>
    have hall : ∀ x ∈ A ++ ([] : List Entry) ++ C, (!(p x)) = true := by
      intro x hx
      simp only [List.append_nil] at hx
      rcases List.mem_append.mp hx with hx | hx
      · simp [hA x hx]
      · simp [hC x hx]
    rw [dropWhile_eq_nil_of_all hall]
    simp
  | cons b B' =>
    have h1 : List.dropWhile (fun e => !(p e)) ((b :: B') ++ C) = (b :: B') ++ C := by
      rw [List.cons_append]
      exact dropWhile_cons_of_false (by simp [hB b (by simp)])
    have h2 : List.dropWhile p ((b :: B') ++ C) = List.dropWhile p C :=
      dropWhile_append_of_all (fun x hx => hB x hx)
    rw [List.append_assoc, dropWhile_append_of_all hA', h1, h2]
    have hsub : List.Sublist (C.dropWhile p) C := List.dropWhile_sublist p
    rw [List.all_eq_true]
    intro x hx
    simp [hC x (hsub.mem hx)]

theorem isContig_iff_contigB {p : Entry → Bool} {l : List Entry} :
    IsContig p l ↔ contigB p l = true :=
  ⟨contigB_of_isContig, isContig_of_contigB⟩

/-! Small helpers about ids, slots and sublists. -/

theorem ids_disjoint {X Y : List Entry}
    (hn : ((X ++ Y).map (fun x => x.id)).Nodup) :
    ∀ x ∈ X, ∀ y ∈ Y, x.id ≠ y.id := by
  rw [List.map_append] at hn
  intro x hx y hy hxy
  exact (List.disjoint_of_nodup_append hn) (List.mem_map.mpr ⟨x, hx, rfl⟩)
    (hxy ▸ List.mem_map.mpr ⟨y, hy, rfl⟩)

theorem id_inj {l : List Entry} (hn : (l.map (fun x => x.id)).Nodup)
    {x y : Entry} (hx : x ∈ l) (hy : y ∈ l) (hxy : x.id = y.id) : x = y :=
  List.inj_on_of_nodup_map hn hx hy hxy

theorem getD_set_self {l : List (Option Nat)} {b : Nat} {v : Option Nat}
    (h : b < l.length) : (l.set b v).getD b none = v := by
  induction l generalizing b with
  | nil => simp at h
  | cons a l ih =>
    cases b with
    | zero => rfl
    | succ b => exact ih (Nat.lt_of_succ_lt_succ h)

theorem getD_set_ne {l : List (Option Nat)} {b b' : Nat} {v : Option Nat}
    (h : b ≠ b') : (l.set b v).getD b' none = l.getD b' none := by
  induction l generalizing b b' with
  | nil => rfl
  | cons a l ih =>
    cases b with
    | zero =>
      cases b' with
      | zero => exact absurd rfl h
      | succ b' => rfl
    | succ b =>
      cases b' with
      | zero => rfl
      | succ b' => exact ih (fun hc => h (hc ▸ rfl))

theorem sublist_mid {T X Y : List Entry} {e : Entry}
    (h : List.Sublist (e :: T) (X ++ e :: Y)) (he : e ∉ X) : List.Sublist T Y := by
  induction X with
  | nil =>
    cases h with
    | cons _ h' => exact (List.sublist_cons_self e T).trans h'
    | cons₂ _ h' => exact h'
  | cons x X' ih =>
    cases h with
    | cons _ h' => exact ih h' (fun hc => he (List.mem_cons.mpr (Or.inr hc)))
    | cons₂ _ h' => exact absurd rfl (fun hc => he (List.mem_cons.mpr (Or.inl hc)))

theorem mem_insertBeforeId {l : List Entry} {e x : Entry} {hid : Nat}
    (hx : x ∈ insertBeforeId l e hid) : x = e ∨ x ∈ l := by
  have := (insertBeforeId_perm l e hid).mem_iff.mp hx
  simpa using this

theorem sublist_append_left_of {T Y : List Entry} (X : List Entry)
    (h : List.Sublist T Y) : List.Sublist T (X ++ Y) :=
  h.trans (List.sublist_append_right X Y)

theorem removeById_split_nodup {X Y : List Entry} {e : Entry}
    (hn : ((X ++ e :: Y).map (fun x => x.id)).Nodup) :
    removeById (X ++ e :: Y) e.id = X ++ Y := by
  obtain ⟨h1, h2⟩ := nodup_ids_split hn
  exact removeById_split h1 h2

theorem removeById_sublist (l : List Entry) (i : Nat) :
    List.Sublist (removeById l i) l :=
  List.filter_sublist l

theorem bpack_pend_shrink {nb b i : Nat} {pend : List Nat} {l : List Entry}
    {slot : Option Nat}
    (hx : ∀ x ∈ l, x.id = i → bucket_of nb x.hash ≠ b)
    (hp : BPack nb b (i :: pend) l slot) : BPack nb b pend l slot := by
  cases slot with
  | none =>
    intro x hxl hb
    rcases List.mem_cons.mp (hp x hxl hb) with hc | hc
    · exact absurd hb (hx x hxl hc)
    · exact hc
  | some hid =>
    obtain ⟨A, hd, B, C, hl, hhid, hbhd, hpe, hA, hB, hC⟩ := hp
    refine ⟨A, hd, B, C, hl, hhid, hbhd, ?_, hA, ?_, ?_⟩
    · exact fun hc => hpe (List.mem_cons.mpr (Or.inr hc))
    · exact fun x hxB => ⟨(hB x hxB).1, fun hc => (hB x hxB).2 (List.mem_cons.mpr (Or.inr hc))⟩
    · intro x hxC hbx
      rcases List.mem_cons.mp (hC x hxC hbx) with hc | hc
      · exact absurd hbx (hx x (by subst hl; simp [hxC]) hc)
      · exact hc

theorem bpack_remove {nb b : Nat} {pend : List Nat} {l : List Entry}
    {slot : Option Nat} {e : Entry}
    (hn : (l.map (fun x => x.id)).Nodup) (he : e ∈ l) (hb : bucket_of nb e.hash ≠ b)
    (hp : BPack nb b pend l slot) : BPack nb b pend (removeById l e.id) slot := by
  cases slot with
  | none =>
    intro x hx hbx
    exact hp x (List.mem_of_mem_filter hx) hbx
  | some hid =>
    obtain ⟨A, hd, B, C, hl, hhid, hbhd, hpe, hA, hB, hC⟩ := hp
    subst hl
    have heAC : e ∈ A ∨ e ∈ C := by
      rcases List.mem_append.mp he with h | h
      · rcases List.mem_append.mp h with h | h
        · exact Or.inl h
        · rcases List.mem_cons.mp h with rfl | h
          · exact absurd hbhd hb
          · exact absurd (hB e h).1 hb
      · exact Or.inr h
    rcases heAC with heA | heC
    · obtain ⟨A₁, A₂, rfl⟩ := List.append_of_mem heA
      have harg : (A₁ ++ e :: A₂) ++ hd :: B ++ C = A₁ ++ e :: (A₂ ++ hd :: B ++ C) := by
        simp [List.append_assoc]
      have hn' : ((A₁ ++ e :: (A₂ ++ hd :: B ++ C)).map (fun x => x.id)).Nodup := by
        rw [← harg]
        exact hn
      have hre := removeById_split_nodup hn'
      rw [harg, hre]
      refine ⟨A₁ ++ A₂, hd, B, C, by simp [List.append_assoc], hhid, hbhd, hpe, ?_, hB, hC⟩
      intro x hx
      rcases List.mem_append.mp hx with h | h
      · exact hA x (List.mem_append.mpr (Or.inl h))
      · exact hA x (by simp [h])
    · obtain ⟨C₁, C₂, rfl⟩ := List.append_of_mem heC
      have harg : A ++ hd :: B ++ (C₁ ++ e :: C₂) = (A ++ hd :: (B ++ C₁)) ++ e :: C₂ := by
        simp [List.append_assoc]
      have hn' : (((A ++ hd :: (B ++ C₁)) ++ e :: C₂).map (fun x => x.id)).Nodup := by
        rw [← harg]
        exact hn
      have hre := removeById_split_nodup hn'
      rw [harg, hre]
      refine ⟨A, hd, B, C₁ ++ C₂, by simp [List.append_assoc], hhid, hbhd, hpe, hA, hB, ?_⟩
      intro x hx hbx
      rcases List.mem_append.mp hx with h | h
      · exact hC x (List.mem_append.mpr (Or.inl h)) hbx
      · exact hC x (by simp [h]) hbx

theorem bpack_insert_before {nb b : Nat} {pend : List Nat} {l : List Entry}
    {slot : Option Nat} {e tgt : Entry}
    (hn : (l.map (fun x => x.id)).Nodup) (htgt : tgt ∈ l)
    (hbt : bucket_of nb tgt.hash ≠ b) (hbe : bucket_of nb e.hash ≠ b)
    (hp : BPack nb b pend l slot) :
    BPack nb b pend (insertBeforeId l e tgt.id) slot := by
  cases slot with
  | none =>
    intro x hx hbx
    rcases mem_insertBeforeId hx with rfl | hx
    · exact absurd hbx hbe
    · exact hp x hx hbx
  | some hid =>
    obtain ⟨A, hd, B, C, hl, hhid, hbhd, hpe, hA, hB, hC⟩ := hp
    subst hl
    have htAC : tgt ∈ A ∨ tgt ∈ C := by
      rcases List.mem_append.mp htgt with h | h
      · rcases List.mem_append.mp h with h | h
        · exact Or.inl h
        · rcases List.mem_cons.mp h with rfl | h
          · exact absurd hbhd hbt
          · exact absurd (hB tgt h).1 hbt
      · exact Or.inr h
    rcases htAC with htA | htC
    · obtain ⟨A₁, A₂, rfl⟩ := List.append_of_mem htA
      have harg : (A₁ ++ tgt :: A₂) ++ hd :: B ++ C
          = A₁ ++ tgt :: (A₂ ++ hd :: B ++ C) := by
        simp [List.append_assoc]
      have hn' : ((A₁ ++ tgt :: (A₂ ++ hd :: B ++ C)).map (fun x => x.id)).Nodup := by
        rw [← harg]
        exact hn
      have hsplit := insertBeforeId_split (Y := A₂ ++ hd :: B ++ C) (e := e)
        (nodup_ids_split hn').1
      rw [harg, hsplit]
      refine ⟨A₁ ++ e :: tgt :: A₂, hd, B, C, by simp [List.append_assoc], hhid, hbhd,
        hpe, ?_, hB, hC⟩
      intro x hx
      rcases List.mem_append.mp hx with h | h
      · exact hA x (List.mem_append.mpr (Or.inl h))
      · rcases List.mem_cons.mp h with rfl | h
        · exact hbe
        · rcases List.mem_cons.mp h with rfl | h
          · exact hbt
          · exact hA x (by simp [h])
    · obtain ⟨C₁, C₂, rfl⟩ := List.append_of_mem htC
      have harg : A ++ hd :: B ++ (C₁ ++ tgt :: C₂)
          = ((A ++ hd :: B) ++ C₁) ++ tgt :: C₂ := by
        simp [List.append_assoc]
      have hn' : ((((A ++ hd :: B) ++ C₁) ++ tgt :: C₂).map (fun x => x.id)).Nodup := by
        rw [← harg]
        exact hn
      have hsplit := insertBeforeId_split (Y := C₂) (e := e)
        (nodup_ids_split hn').1
      rw [harg, hsplit]
      refine ⟨A, hd, B, C₁ ++ e :: tgt :: C₂, by simp [List.append_assoc], hhid, hbhd,
        hpe, hA, hB, ?_⟩
      intro x hx hbx
      rcases List.mem_append.mp hx with h | h
      · exact hC x (List.mem_append.mpr (Or.inl h)) hbx
      · rcases List.mem_cons.mp h with rfl | h
        · exact absurd hbx hbe
        · rcases List.mem_cons.mp h with rfl | h
          · exact absurd hbx hbt
          · exact hC x (by simp [h]) hbx

theorem first_block_unique {p : Entry → Bool} {s t A B : List Entry} {x y : Entry}
    (h : s ++ x :: t = A ++ y :: B) (hs : ∀ a ∈ s, p a = false)
    (hA : ∀ a ∈ A, p a = false) (hx : p x = true) (hy : p y = true) :
    s = A ∧ x = y ∧ t = B := by
  induction s generalizing A with
  | nil =>
    cases A with
    | nil =>
      simp only [List.nil_append, List.cons.injEq] at h
      exact ⟨rfl, h.1, h.2⟩
    | cons a A' =>
      simp only [List.nil_append, List.cons_append, List.cons.injEq] at h
      exact absurd (h.1 ▸ hx) (by simp [hA a (by simp)])
  | cons c s' ih =>
    cases A with
    | nil =>
      simp only [List.cons_append, List.nil_append, List.cons.injEq] at h
      exact absurd (h.1 ▸ hs c (by simp)) (by simp [hy])
    | cons a A' =>
      simp only [List.cons_append, List.cons.injEq] at h
      obtain ⟨rfl, h⟩ := h
      obtain ⟨h1, h2, h3⟩ := ih h (fun u hu => hs u (by simp [hu]))
        (fun u hu => hA u (by simp [hu]))
      exact ⟨by rw [h1], h2, h3⟩

theorem bpack_of_slot_spec {nb b : Nat} {l : List Entry} {slot : Option Nat}
    (h1 : slot = (l.find? (inB nb b)).map (fun e => e.id))
    (h2 : contigB (inB nb b) l = true) : BPack nb b [] l slot := by
  cases hf : l.find? (inB nb b) with
  | none =>
    rw [hf] at h1
    subst h1
    intro x hx hbx
    exact absurd (inB_true.mpr hbx) (List.find?_eq_none.mp hf x hx)
  | some hd =>
    rw [hf] at h1
    subst h1
    obtain ⟨s, t, hst, hs, hphd⟩ := find?_eq_some_split hf
    obtain ⟨A0, B0, C0, hdec, hA0, hB0, hC0⟩ := isContig_of_contigB h2
    rw [hst] at hdec
    cases B0 with
    | nil =>
      have hmem : hd ∈ A0 ++ [] ++ C0 := by
        rw [← hdec]
        simp
      have hfalse : inB nb b hd = false := by
        rcases List.mem_append.mp hmem with hm | hm
        · rcases List.mem_append.mp hm with hm | hm
          · exact hA0 hd hm
          · simp at hm
        · exact hC0 hd hm
      exact absurd hphd (by simp [hfalse])
    | cons b0 B0' =>
      have hdec' : s ++ hd :: t = A0 ++ b0 :: (B0' ++ C0) := by
        rw [hdec]
        simp [List.append_assoc]
      obtain ⟨hsA, hdb, htB⟩ := first_block_unique hdec' hs hA0 hphd (hB0 b0 (by simp))
      refine ⟨s, hd, B0', C0, ?_, rfl, inB_true.mp hphd, List.not_mem_nil _, ?_, ?_, ?_⟩
      · rw [hst, htB]
        simp [List.append_assoc]
      · exact fun x hx => inB_false.mp (hs x hx)
      · intro x hx
        refine ⟨inB_true.mp (hB0 x (by simp [hx])), List.not_mem_nil _⟩
      · intro x hx hbx
        exact absurd hbx (inB_false.mp (hC0 x hx))

theorem slot_spec_of_bpack {nb b : Nat} {l : List Entry} {slot : Option Nat}
    (h : BPack nb b [] l slot) :
    slot = (l.find? (inB nb b)).map (fun e => e.id) ∧ contigB (inB nb b) l = true := by
  cases slot with
  | none =>
    have hall : ∀ x ∈ l, inB nb b x = false := by
      intro x hx
      cases hpx : inB nb b x with
      | false => rfl
      | true => exact absurd (h x hx (inB_true.mp hpx)) (List.not_mem_nil _)
    constructor
    · have : l.find? (inB nb b) = none := by
        rw [List.find?_eq_none]
        intro x hx
        simp [hall x hx]
      rw [this]
      rfl
    · exact contigB_of_isContig ⟨l, [], [], by simp, hall, by simp, by simp⟩
  | some hid =>
    obtain ⟨A, hd, B, C, hl, hhid, hbhd, _, hA, hB, hC⟩ := h
    subst hl
    have hCfalse : ∀ x ∈ C, inB nb b x = false := by
      intro x hx
      cases hpx : inB nb b x with
      | false => rfl
      | true => exact absurd (hC x hx (inB_true.mp hpx)) (List.not_mem_nil _)
    constructor
    · have harg : (A ++ hd :: B) ++ C = A ++ hd :: (B ++ C) := by
        simp [List.append_assoc]
      rw [harg, find?_prefix_false (fun x hx => inB_false.mpr (hA x hx)),
        List.find?_cons_of_pos _ (inB_true.mpr hbhd)]
      simp [hhid]
    · refine contigB_of_isContig ⟨A, hd :: B, C, rfl, ?_, ?_, hCfalse⟩
      · exact fun x hx => inB_false.mpr (hA x hx)
      · intro x hx
        rcases List.mem_cons.mp hx with rfl | hx
        · exact inB_true.mpr hbhd
        · exact inB_true.mpr (hB x hx).1

theorem valid_bpack {h : Hashmap} (hv : Valid h) {b : Nat} (hb : b < numBuckets h) :
    BPack (numBuckets h) b [] h.entries (h.buckets.getD b none) :=
  bpack_of_slot_spec (hv.2.2.2.2 b hb).1 (hv.2.2.2.2 b hb).2

theorem midInv_step {nb : Nat} {orig cur : List Entry} {slots : List (Option Nat)}
    {e : Entry} {S : List Entry} (hnb : 0 < nb)
    (hno : (orig.map (fun x => x.id)).Nodup)
    (hcache : ∀ x ∈ orig, x.hash = hash_of x.key)
    (inv : MidInv nb orig cur slots (e :: S)) :
    MidInv nb orig (rethreadStep nb (cur, slots) e).1
      (rethreadStep nb (cur, slots) e).2 S := by
  have hnodup : (cur.map (fun x => x.id)).Nodup := (inv.perm.map _).nodup_iff.mpr hno
  have he : e ∈ cur := inv.sub.mem (List.mem_cons_self e S)
  have hecache : e.hash = hash_of e.key := hcache e (inv.perm.mem_iff.mp he)
  have hb0 : bucket_of nb e.hash < nb := Nat.mod_lt _ hnb
  have hstep1 : (rethreadStep nb (cur, slots) e).1
      = spliceBefore cur e (slots.getD (bucket_of nb e.hash) none) := by
    simp [rethreadStep, ← hecache]
  have hstep2 : (rethreadStep nb (cur, slots) e).2
      = slots.set (bucket_of nb e.hash) (some e.id) := by
    simp [rethreadStep, ← hecache]
  rw [hstep1, hstep2]
  have hSids : ((e :: S).map (fun x => x.id)).Nodup := hnodup.sublist (inv.sub.map _)
  have hSid : e.id ∉ S.map (fun x => x.id) := by
    rw [List.map_cons] at hSids
    exact (List.nodup_cons.mp hSids).1
  have hSsub : List.Sublist S cur := (List.sublist_cons_self e S).trans inv.sub
  have hidinj : ∀ x ∈ cur, x.id = e.id → x = e := fun x hx hxe => id_inj hnodup hx he hxe
  have hshrinkhyp : ∀ (b : Nat), b ≠ bucket_of nb e.hash →
      ∀ x ∈ cur, x.id = e.id → bucket_of nb x.hash ≠ b := by
    intro b hbne x hx hxe
    rw [hidinj x hx hxe]
    exact fun hc => hbne hc.symm
  cases hslot : slots.getD (bucket_of nb e.hash) none with
  | none =>
    rw [spliceBefore_none]
    refine ⟨inv.perm, hSsub, by rw [List.length_set]; exact inv.slen, ?_⟩
    intro b hb
    by_cases hbb : b = bucket_of nb e.hash
    · subst hbb
      rw [getD_set_self (by rw [inv.slen]; exact hb)]
      have hp0 := inv.pack (bucket_of nb e.hash) hb
      rw [hslot] at hp0
      obtain ⟨X, Y, hcur, hX, hY⟩ := mem_split_nodup hnodup he
      have hSY : List.Sublist S Y :=
        sublist_mid (hcur ▸ inv.sub) (fun hc => hX e hc rfl)
      have hnXY : ((X ++ e :: Y).map (fun x => x.id)).Nodup := hcur ▸ hnodup
      refine ⟨X, e, [], Y, by rw [hcur]; simp, rfl, rfl, hSid, ?_, by simp, ?_⟩
      · intro x hx hbx
        have hida := hp0 x (by rw [hcur]; simp [hx]) hbx
        rw [List.map_cons] at hida
        rcases List.mem_cons.mp hida with hc | hc
        · exact hX e (hidinj x (by rw [hcur]; simp [hx]) hc ▸ hx) rfl
        · obtain ⟨y, hy, hyid⟩ := List.mem_map.mp hc
          exact ids_disjoint hnXY x hx y (List.mem_cons.mpr (Or.inr (hSY.mem hy)))
            hyid.symm
      · intro x hx hbx
        have hida := hp0 x (by rw [hcur]; simp [hx]) hbx
        rw [List.map_cons] at hida
        rcases List.mem_cons.mp hida with hc | hc
        · exact absurd rfl (hY e ((hidinj x (by rw [hcur]; simp [hx]) hc) ▸ hx))
        · exact hc
    · rw [getD_set_ne (fun hc => hbb hc.symm)]
      have hp0 := inv.pack b hb
      rw [List.map_cons] at hp0
      exact bpack_pend_shrink (hshrinkhyp b hbb) hp0
  | some hid =>
    rw [spliceBefore_some]
    have hp0 := inv.pack (bucket_of nb e.hash) hb0
    rw [hslot] at hp0
    obtain ⟨A, hd, B, C, hcur, hhid, hbhd, hpe, hA, hB, hC⟩ := hp0
    have hepend : e.id ∈ (e :: S).map (fun x => x.id) := by simp
    have hdneid : hd.id ≠ e.id := fun hc => hpe (hc ▸ hepend)
    have heC : e ∈ C := by
      have hme : e ∈ A ++ hd :: B ++ C := hcur ▸ he
      rcases List.mem_append.mp hme with hm | hm
      · rcases List.mem_append.mp hm with hm | hm
        · exact absurd rfl (hA e hm)
        · rcases List.mem_cons.mp hm with hm | hm
          · exact absurd hm.symm (fun hc => hdneid (hc ▸ rfl))
          · exact absurd hepend (hB e hm).2
      · exact hm
    obtain ⟨C₁, C₂, rfl⟩ := List.append_of_mem heC
    have hX : cur = ((A ++ hd :: B) ++ C₁) ++ e :: C₂ := by
      rw [hcur]
      simp [List.append_assoc]
    have hnX : ((((A ++ hd :: B) ++ C₁) ++ e :: C₂).map (fun x => x.id)).Nodup :=
      hX ▸ hnodup
    have hrem : removeById cur e.id = ((A ++ hd :: B) ++ C₁) ++ C₂ := by
      rw [hX]
      exact removeById_split_nodup hnX
    have hXids := nodup_ids_split hnX
    have hnrem : ((removeById cur e.id).map (fun x => x.id)).Nodup :=
      ((removeById_sublist cur e.id).map (fun x => x.id)).nodup hnodup
    have hr : ((A ++ hd :: B) ++ C₁) ++ C₂ = A ++ hd :: ((B ++ C₁) ++ C₂) := by
      simp [List.append_assoc]
    have hn3 : ((A ++ hd :: ((B ++ C₁) ++ C₂)).map (fun x => x.id)).Nodup := by
      rw [← hr, ← hrem]
      exact hnrem
    have hAhd : ∀ x ∈ A, x.id ≠ hd.id := (nodup_ids_split hn3).1
    have hins : insertBeforeId (removeById cur e.id) e hid
        = A ++ e :: hd :: ((B ++ C₁) ++ C₂) := by
      rw [hrem, hr, ← hhid]
      exact insertBeforeId_split hAhd
    have hpm : List.Perm (insertBeforeId (removeById cur e.id) e hid) cur := by
      have : List.Perm (spliceBefore cur e (some hid)) cur := spliceBefore_perm hnodup he
      rwa [spliceBefore_some] at this
    have hbe : ∀ b : Nat, b ≠ bucket_of nb e.hash → bucket_of nb e.hash ≠ b :=
      fun b hbb hc => hbb hc.symm
    refine ⟨hpm.trans inv.perm, ?_, by rw [List.length_set]; exact inv.slen, ?_⟩
    · have heX : e ∉ ((A ++ hd :: B) ++ C₁) := fun hc => (hXids.1 e hc) rfl
      have hSC₂ : List.Sublist S C₂ := sublist_mid (hX ▸ inv.sub) heX
      rw [hins]
      exact sublist_append_left_of A
        (((sublist_append_left_of (B ++ C₁) hSC₂).cons hd).cons e)
    · intro b hb
      by_cases hbb : b = bucket_of nb e.hash
      · subst hbb
        rw [hins, getD_set_self (by rw [inv.slen]; exact hb)]
        refine ⟨A, e, hd :: B, C₁ ++ C₂, by simp [List.append_assoc], rfl, rfl,
          hSid, hA, ?_, ?_⟩
        · intro x hx
          rcases List.mem_cons.mp hx with rfl | hx
          · refine ⟨hbhd, fun hc => hpe ?_⟩
            rw [List.map_cons]
            exact List.mem_cons.mpr (Or.inr hc)
          · refine ⟨(hB x hx).1, fun hc => (hB x hx).2 ?_⟩
            rw [List.map_cons]
            exact List.mem_cons.mpr (Or.inr hc)
        · intro x hx hbx
          have hxC : x ∈ C₁ ++ e :: C₂ := by
            rcases List.mem_append.mp hx with h | h
            · exact List.mem_append.mpr (Or.inl h)
            · exact List.mem_append.mpr (Or.inr (List.mem_cons.mpr (Or.inr h)))
          have hid2 := hC x hxC hbx
          rw [List.map_cons] at hid2
          rcases List.mem_cons.mp hid2 with hc | hc
          · exfalso
            rcases List.mem_append.mp hx with h | h
            · exact hXids.1 x (List.mem_append.mpr (Or.inr h)) hc
            · exact hXids.2 x h hc
          · exact hc
      · rw [getD_set_ne (fun hc => hbb hc.symm)]
        have hpb := inv.pack b hb
        have hrm := bpack_remove hnodup he (hbe b hbb) hpb
        have hhdmem : hd ∈ removeById cur e.id := by
          rw [hrem]
          simp
        have hbt : bucket_of nb hd.hash ≠ b := by
          rw [hbhd]
          exact hbe b hbb
        have hins2 := bpack_insert_before hnrem hhdmem hbt (hbe b hbb) hrm
        rw [hhid, List.map_cons] at hins2
        refine bpack_pend_shrink ?_ hins2
        intro x hx hxe
        exact hshrinkhyp b hbb x (hpm.mem_iff.mp hx) hxe

theorem midInv_fold {nb : Nat} {orig : List Entry} (hnb : 0 < nb)
    (hno : (orig.map (fun x => x.id)).Nodup)
    (hcache : ∀ x ∈ orig, x.hash = hash_of x.key) :
    ∀ (S cur : List Entry) (slots : List (Option Nat)),
      MidInv nb orig cur slots S →
      MidInv nb orig (S.foldl (rethreadStep nb) (cur, slots)).1
        (S.foldl (rethreadStep nb) (cur, slots)).2 [] := by
  intro S
  induction S with
  | nil =>
    intro cur slots inv
    simpa using inv
  | cons e S ih =>
    intro cur slots inv
    have step := midInv_step hnb hno hcache inv
    have h2 := ih _ _ step
    simpa [List.foldl_cons] using h2

theorem getD_replicate {n b : Nat} : (List.replicate n (none : Option Nat)).getD b none = none := by
  induction n generalizing b with
  | zero => rfl
  | succ n ih =>
    cases b with
    | zero => rfl
    | succ b => exact ih

/-- After re-threading a store with correctly cached hashes, distinct ids
and all-empty slots, the map is a permutation of the old store satisfying
the per-bucket slot specification. -/
theorem rethread_spec {h : Hashmap} (hnb : 0 < numBuckets h)
    (hno : (h.entries.map (fun x => x.id)).Nodup)
    (hcache : ∀ x ∈ h.entries, x.hash = hash_of x.key)
    (hslots : ∀ b, b < numBuckets h → h.buckets.getD b none = none) :
    List.Perm (rethread h).entries h.entries ∧
    numBuckets (rethread h) = numBuckets h ∧
    (∀ b, b < numBuckets h →
      (rethread h).buckets.getD b none
        = ((rethread h).entries.find? (inB (numBuckets h) b)).map (fun e => e.id) ∧
      contigB (inB (numBuckets h) b) (rethread h).entries = true) := by
  have hinv0 : MidInv (numBuckets h) h.entries h.entries h.buckets h.entries := by
    refine ⟨List.Perm.refl _, List.Sublist.refl _, rfl, ?_⟩
    intro b hb
    rw [hslots b hb]
    intro x hx hbx
    exact List.mem_map.mpr ⟨x, hx, rfl⟩
  have hfin := midInv_fold hnb hno hcache h.entries h.entries h.buckets hinv0
  have hent : (rethread h).entries
      = (h.entries.foldl (rethreadStep (numBuckets h)) (h.entries, h.buckets)).1 := rfl
  have hbuck : (rethread h).buckets
      = (h.entries.foldl (rethreadStep (numBuckets h)) (h.entries, h.buckets)).2 := rfl
  refine ⟨hent ▸ hfin.perm, ?_, ?_⟩
  · show (rethread h).buckets.length = numBuckets h
    rw [hbuck]
    exact hfin.slen
  · intro b hb
    have hp := hfin.pack b hb
    rw [List.map_nil] at hp
    have := slot_spec_of_bpack (hent ▸ hbuck ▸ hp)
    exact this

theorem impl_alloc_buckets_spec (h : Hashmap) (n : Nat) (plan : List Bool) :
    (∃ e plan', impl_alloc_buckets h n plan = (.error e, h, plan')) ∨
    (∃ plan', impl_alloc_buckets h n plan
      = (.ok (), { h with buckets := List.replicate n none }, plan')) := by
  unfold impl_alloc_buckets
  split
  · exact Or.inl ⟨_, _, rfl⟩
  · rcases hab : allocStep plan with ⟨b, plan'⟩
    cases b with
    | false => exact Or.inl ⟨_, _, rfl⟩
    | true => exact Or.inr ⟨_, rfl⟩

theorem hashmap_rehash_cases (h : Hashmap) (n : Nat) (plan : List Bool) :
    (n ≤ numBuckets h ∧ hashmap_rehash h n plan = (.ok (), h, plan)) ∨
    (numBuckets h < n ∧ ∃ e plan', hashmap_rehash h n plan = (.error e, h, plan')) ∨
    (numBuckets h < n ∧ ∃ plan',
      hashmap_rehash h n plan
        = (.ok (), rethread { h with buckets := List.replicate n none }, plan')) := by
  unfold hashmap_rehash
  split
  · exact Or.inl ⟨by assumption, rfl⟩
  · have hlt : numBuckets h < n := Nat.lt_of_not_le (by assumption)
    rcases impl_alloc_buckets_spec h n plan with ⟨e, plan', heq⟩ | ⟨plan', heq⟩
    · rw [heq]
      exact Or.inr (Or.inl ⟨hlt, e, plan', rfl⟩)
    · rw [heq]
      exact Or.inr (Or.inr ⟨hlt, plan', rfl⟩)

/-- The Valid invariant survives a successful grow-and-re-thread. -/
theorem rethread_valid_of (h : Hashmap) (n : Nat) (hv : Valid h)
    (hlt : numBuckets h < n) :
    Valid (rethread { h with buckets := List.replicate n none }) := by
  obtain ⟨hnb, hids, hkeys, hent, _⟩ := hv
  have hnb' : numBuckets { h with buckets := List.replicate n none } = n := by
    simp [numBuckets]
  have hpos : 0 < numBuckets { h with buckets := List.replicate n none } := by
    rw [hnb']
    exact Nat.lt_of_le_of_lt (Nat.zero_le _) hlt
  have hcache' : ∀ x ∈ ({ h with buckets := List.replicate n none } : Hashmap).entries,
      x.hash = hash_of x.key := fun x hx => (hent x hx).1
  have hslots' : ∀ b, b < numBuckets { h with buckets := List.replicate n none } →
      ({ h with buckets := List.replicate n none } : Hashmap).buckets.getD b none = none :=
    fun b _ => getD_replicate
  have hspec := rethread_spec hpos hids hcache' hslots'
  obtain ⟨hperm, hcount, hslot⟩ := hspec
  refine ⟨?_, ?_, ?_, ?_, ?_⟩
  · rw [hcount]
    exact hpos
  · exact (hperm.map _).nodup_iff.mpr hids
  · exact (hperm.map _).nodup_iff.mpr hkeys
  · intro e he
    exact hent e (hperm.mem_iff.mp he)
  · intro b hb
    rw [hcount] at hb
    rw [hcount]
    exact hslot b hb

theorem hashmap_rehash_valid (h : Hashmap) (n : Nat) (plan : List Bool)
    (hv : Valid h) : Valid (hashmap_rehash h n plan).2.1 := by
  rcases hashmap_rehash_cases h n plan with ⟨_, heq⟩ | ⟨_, e, plan', heq⟩ |
    ⟨hlt, plan', heq⟩
  · rw [heq]
    exact hv
  · rw [heq]
    exact hv
  · rw [heq]
    exact rethread_valid_of h n hv hlt

theorem takeWhile_eq_self_of_all {p : Entry → Bool} {l : List Entry}
    (h : ∀ x ∈ l, p x = true) : l.takeWhile p = l := by
  induction l with
  | nil => rfl
  | cons a l ih =>
    rw [List.takeWhile_cons, if_pos (h a (by simp))]
    rw [ih (fun x hx => h x (by simp [hx]))]

theorem takeWhile_all_append_none {p : Entry → Bool} {B C : List Entry}
    (hB : ∀ x ∈ B, p x = true) (hC : ∀ x ∈ C, p x = false) :
    (B ++ C).takeWhile p = B := by
  cases C with
  | nil =>
    rw [List.append_nil]
    exact takeWhile_eq_self_of_all hB
  | cons c C' => exact takeWhile_append_of_all hB (hC c (by simp))

theorem findLoop_eq (hsh b nb : Nat) (key : List Nat) (l : List Entry) :
    findLoop hsh b nb key l
      = ((l.takeWhile (inB nb b)).find?
          (fun e => hsh = e.hash ∧ key = e.key)).map (fun e => e.id) := by
  induction l with
  | nil => rfl
  | cons e rest ih =>
    unfold findLoop
    by_cases h1 : bucket_of nb e.hash = b
    · rw [if_pos h1, List.takeWhile_cons, if_pos (inB_true.mpr h1)]
      by_cases h2 : hsh = e.hash ∧ key = e.key
      · rw [if_pos h2, List.find?_cons_of_pos _ (by simp [h2.1, h2.2])]
        rfl
      · rw [if_neg h2, List.find?_cons_of_neg _ (by simpa using h2)]
        exact ih
    · rw [if_neg h1, List.takeWhile_cons, if_neg (by simpa [inB_true] using h1)]
      rfl

theorem cfind_eq_run (h : Hashmap) (key : List Nat) :
    hashmap_cfind (some h) (some key)
      = ((bucketRun h (bucket_of (numBuckets h) (hash_of key))).find?
          (fun e => hash_of key = e.hash ∧ key = e.key)).map (fun e => e.id) := by
  show (match h.buckets.getD (bucket_of (numBuckets h) (hash_of key)) none with
    | none => none
    | some hid =>
      findLoop (hash_of key) (bucket_of (numBuckets h) (hash_of key)) (numBuckets h) key
        (storeFrom h.entries hid)) = _
  unfold bucketRun
  cases h.buckets.getD (bucket_of (numBuckets h) (hash_of key)) none with
  | none => rfl
  | some hid => exact findLoop_eq _ _ _ _ _

/-- Under the invariant, the walked run of bucket `b` is precisely the
block of the store holding every entry of bucket `b`. -/
theorem bucketRun_split_of_valid {h : Hashmap} (hv : Valid h) {b : Nat}
    (hb : b < numBuckets h) :
    (∃ A C, h.entries = A ++ bucketRun h b ++ C ∧
      (∀ x ∈ A, bucket_of (numBuckets h) x.hash ≠ b) ∧
      (∀ x ∈ C, bucket_of (numBuckets h) x.hash ≠ b) ∧
      (∀ x ∈ bucketRun h b, bucket_of (numBuckets h) x.hash = b)) := by
  have hids := hv.2.1
  have hp := valid_bpack hv hb
  cases hslot : h.buckets.getD b none with
  | none =>
    rw [hslot] at hp
    have hrun : bucketRun h b = [] := by
      unfold bucketRun
      rw [hslot]
    refine ⟨h.entries, [], by simp [hrun], ?_, by simp, by simp [hrun]⟩
    intro x hx hbx
    exact absurd (hp x hx hbx) (List.not_mem_nil _)
  | some hid =>
    rw [hslot] at hp
    obtain ⟨A, hd, B, C, hcur, hhid, hbhd, _, hA, hB, hC⟩ := hp
    have hCne : ∀ x ∈ C, bucket_of (numBuckets h) x.hash ≠ b := by
      intro x hx hbx
      exact absurd (hC x hx hbx) (List.not_mem_nil _)
    have hcur' : h.entries = A ++ hd :: (B ++ C) := by
      rw [hcur]
      simp [List.append_assoc]
    have hA_id : ∀ x ∈ A, x.id ≠ hd.id := (nodup_ids_split (hcur' ▸ hids)).1
    have hstore : storeFrom h.entries hid = hd :: (B ++ C) := by
      unfold storeFrom
      rw [hcur', ← hhid]
      rw [dropWhile_append_of_all (fun x hx => idNot_true.mpr (hA_id x hx)),
        dropWhile_cons_of_false (idNot_false.mpr rfl)]
    have hrun : bucketRun h b = hd :: B := by
      unfold bucketRun
      rw [hslot]
      show (storeFrom h.entries hid).takeWhile (inB (numBuckets h) b) = hd :: B
      rw [hstore]
      rw [List.takeWhile_cons, if_pos (inB_true.mpr hbhd),
        takeWhile_all_append_none (fun x hx => inB_true.mpr (hB x hx).1)
          (fun x hx => inB_false.mpr (hCne x hx))]
    refine ⟨A, C, ?_, hA, hCne, ?_⟩
    · rw [hrun, hcur]
    · intro x hx
      rw [hrun] at hx
      rcases List.mem_cons.mp hx with rfl | hx
      · exact hbhd
      · exact (hB x hx).1

theorem mem_bucketRun_of_valid {h : Hashmap} (hv : Valid h) {b : Nat}
    (hb : b < numBuckets h) {e : Entry} (he : e ∈ h.entries)
    (hbe : bucket_of (numBuckets h) e.hash = b) : e ∈ bucketRun h b := by
  obtain ⟨A, C, hsplit, hA, hC, _⟩ := bucketRun_split_of_valid hv hb
  rw [hsplit] at he
  rcases List.mem_append.mp he with hm | hm
  · rcases List.mem_append.mp hm with hm | hm
    · exact absurd hbe (hA e hm)
    · exact hm
  · exact absurd hbe (hC e hm)

theorem bucketRun_sublist (h : Hashmap) (b : Nat) :
    List.Sublist (bucketRun h b) h.entries := by
  unfold bucketRun
  cases h.buckets.getD b none with
  | none => exact List.nil_sublist _
  | some hid =>
    exact ((storeFrom h.entries hid).takeWhile_sublist _).trans
      (List.dropWhile_sublist _)

theorem cfind_some_sound {h : Hashmap} {key : List Nat} {i : Nat}
    (hres : hashmap_cfind (some h) (some key) = some i) :
    ∃ e ∈ bucketRun h (bucket_of (numBuckets h) (hash_of key)),
      e.id = i ∧ e.hash = hash_of key ∧ e.key = key := by
  rw [cfind_eq_run] at hres
  obtain ⟨e, hfind, hei⟩ := Option.map_eq_some'.mp hres
  have hmem := List.mem_of_find?_eq_some hfind
  have hpred := List.find?_some hfind
  simp only [decide_eq_true_eq] at hpred
  exact ⟨e, hmem, hei, hpred.1.symm, hpred.2.symm⟩

theorem cfind_some_of_match {h : Hashmap} {key : List Nat} {e : Entry}
    (he : e ∈ bucketRun h (bucket_of (numBuckets h) (hash_of key)))
    (h1 : e.hash = hash_of key) (h2 : e.key = key) :
    ∃ i, hashmap_cfind (some h) (some key) = some i := by
  have hsome : ((bucketRun h (bucket_of (numBuckets h) (hash_of key))).find?
      (fun e => hash_of key = e.hash ∧ key = e.key)).isSome :=
    List.find?_isSome.mpr ⟨e, he, by simp [h1, h2]⟩
  obtain ⟨a, ha⟩ := Option.isSome_iff_exists.mp hsome
  refine ⟨a.id, ?_⟩
  rw [cfind_eq_run, ha]
  rfl

theorem cfind_complete {h : Hashmap} (hv : Valid h) {key : List Nat} {e : Entry}
    (he : e ∈ h.entries) (hkey : e.key = key) :
    ∃ i, hashmap_cfind (some h) (some key) = some i := by
  have hhash : e.hash = hash_of key := by
    rw [(hv.2.2.2.1 e he).1, hkey]
  have hb : bucket_of (numBuckets h) (hash_of key) < numBuckets h :=
    Nat.mod_lt _ hv.1
  have hrun := mem_bucketRun_of_valid hv hb he (by rw [hhash])
  exact cfind_some_of_match hrun hhash hkey

theorem cfind_none_of_absent {h : Hashmap} {key : List Nat}
    (habs : ∀ e ∈ h.entries, e.key ≠ key) :
    hashmap_cfind (some h) (some key) = none := by
  rw [cfind_eq_run]
  have : (bucketRun h (bucket_of (numBuckets h) (hash_of key))).find?
      (fun e => hash_of key = e.hash ∧ key = e.key) = none := by
    rw [List.find?_eq_none]
    intro e hmem hc
    simp only [decide_eq_true_eq] at hc
    exact habs e ((bucketRun_sublist h _).mem hmem) hc.2.symm
  rw [this]
  rfl

theorem cfind_absent_of_none {h : Hashmap} (hv : Valid h) {key : List Nat}
    (hres : hashmap_cfind (some h) (some key) = none) :
    ∀ e ∈ h.entries, e.key ≠ key := by
  intro e he hkey
  obtain ⟨i, hi⟩ := cfind_complete hv he hkey
  rw [hres] at hi
  exact Option.noConfusion hi

theorem impl_rehash_if_needed_spec (h : Hashmap) (n : Nat) (plan : List Bool) :
    (qdiv (n : ℚ) h.max_load_factor > FLT_EXACT_MAX ∧
      impl_rehash_if_needed h n plan = (.error .EOVERFLOW, h, plan)) ∨
    (¬(qdiv (n : ℚ) h.max_load_factor > FLT_EXACT_MAX) ∧
      requiredBuckets h n ≤ numBuckets h ∧
      impl_rehash_if_needed h n plan = (.ok (), h, plan)) ∨
    (¬(qdiv (n : ℚ) h.max_load_factor > FLT_EXACT_MAX) ∧
      numBuckets h < requiredBuckets h n ∧
      requiredBuckets h n > BUCKET_COUNT_MAXIMUM ∧
      impl_rehash_if_needed h n plan = (.error .EOVERFLOW, h, plan)) ∨
    (¬(qdiv (n : ℚ) h.max_load_factor > FLT_EXACT_MAX) ∧
      numBuckets h < requiredBuckets h n ∧
      ¬(requiredBuckets h n > BUCKET_COUNT_MAXIMUM) ∧
      impl_rehash_if_needed h n plan
        = hashmap_rehash h (requiredBuckets h n) plan) := by
  unfold impl_rehash_if_needed requiredBuckets
  by_cases h1 : qdiv (n : ℚ) h.max_load_factor > FLT_EXACT_MAX
  · rw [if_pos h1]
    exact Or.inl ⟨h1, rfl⟩
  · rw [if_neg h1]
    by_cases h2 : impl_bucket_count_ideal (castSizeT (qdiv (n : ℚ) h.max_load_factor))
        ≤ numBuckets h
    · rw [if_pos h2]
      exact Or.inr (Or.inl ⟨h1, h2, rfl⟩)
    · rw [if_neg h2]
      by_cases h3 : impl_bucket_count_ideal (castSizeT (qdiv (n : ℚ) h.max_load_factor))
          > BUCKET_COUNT_MAXIMUM
      · rw [if_pos h3]
        exact Or.inr (Or.inr (Or.inl ⟨h1, Nat.lt_of_not_le h2, h3, rfl⟩))
      · rw [if_neg h3]
        exact Or.inr (Or.inr (Or.inr ⟨h1, Nat.lt_of_not_le h2, h3, rfl⟩))

theorem impl_rehash_if_needed_valid (h : Hashmap) (n : Nat) (plan : List Bool)
    (hv : Valid h) : Valid (impl_rehash_if_needed h n plan).2.1 := by
  rcases impl_rehash_if_needed_spec h n plan with ⟨_, heq⟩ | ⟨_, _, heq⟩ |
    ⟨_, _, _, heq⟩ | ⟨_, _, _, heq⟩ <;> rw [heq]
  · exact hv
  · exact hv
  · exact hv
  · exact hashmap_rehash_valid h _ plan hv

theorem contigB_nil (p : Entry → Bool) : contigB p [] = true := rfl

theorem hashmap_clear_valid (h : Hashmap) (hv : Valid h) :
    Valid (hashmap_clear h) := by
  refine ⟨?_, by simp [hashmap_clear], by simp [hashmap_clear],
    by simp [hashmap_clear], ?_⟩
  · show 0 < (List.replicate (numBuckets h) (none : Option Nat)).length
    rw [List.length_replicate]
    exact hv.1
  · intro b hb
    constructor
    · show (List.replicate (numBuckets h) (none : Option Nat)).getD b none = _
      rw [getD_replicate]
      rfl
    · exact contigB_nil _

theorem valid_mlf (h : Hashmap) (z : ℚ) (hv : Valid h) :
    Valid { h with max_load_factor := z } := hv

theorem hashmap_max_load_factor_set_valid (h : Hashmap) (z : ℚ) (plan : List Bool)
    (hv : Valid h) : Valid (hashmap_max_load_factor_set h z plan).2.1 := by
  unfold hashmap_max_load_factor_set
  exact impl_rehash_if_needed_valid _ _ _ (valid_mlf h _ hv)

theorem hashmap_reserve_valid (h : Hashmap) (n : Nat) (plan : List Bool)
    (hv : Valid h) : Valid (hashmap_reserve h n plan).2.1 := by
  unfold hashmap_reserve
  dsimp only
  split
  · exact hv
  · exact impl_rehash_if_needed_valid _ _ _ hv

theorem bpack_append {nb b : Nat} {pend : List Nat} {l : List Entry}
    {slot : Option Nat} {e : Entry} (hbe : bucket_of nb e.hash ≠ b)
    (hp : BPack nb b pend l slot) : BPack nb b pend (l ++ [e]) slot := by
  cases slot with
  | none =>
    intro x hx hbx
    rcases List.mem_append.mp hx with hx | hx
    · exact hp x hx hbx
    · rw [List.mem_singleton.mp hx] at hbx
      exact absurd hbx hbe
  | some hid =>
    obtain ⟨A, hd, B, C, hl, hhid, hbhd, hpe, hA, hB, hC⟩ := hp
    refine ⟨A, hd, B, C ++ [e], by rw [hl]; simp [List.append_assoc], hhid, hbhd,
      hpe, hA, hB, ?_⟩
    intro x hx hbx
    rcases List.mem_append.mp hx with hx | hx
    · exact hC x hx hbx
    · rw [List.mem_singleton.mp hx] at hbx
      exact absurd hbx hbe

theorem removeById_append_singleton {l : List Entry} {e : Entry}
    (h : ∀ x ∈ l, x.id ≠ e.id) : removeById (l ++ [e]) e.id = l := by
  have := removeById_split (A := l) (B := []) (e := e) h (by simp)
  simpa using this

theorem insertPlaced_ids {h : Hashmap} (key : List Nat) (hv : Valid h) :
    ((h.entries
      ++ [({ id := h.next_id, hash := hash_of key, key := key } : Entry)]).map
        (fun x => x.id)).Nodup := by
  rw [List.map_append, List.nodup_append]
  refine ⟨hv.2.1, List.nodup_singleton _, ?_⟩
  intro a ha hb
  obtain ⟨x, hx, rfl⟩ := List.mem_map.mp ha
  have hbid : x.id = h.next_id := by
    simpa using hb
  exact Nat.lt_irrefl _ (hbid ▸ (hv.2.2.2.1 x hx).2)

theorem insertPlaced_perm (h : Hashmap) (key : List Nat) (hv : Valid h) :
    List.Perm (insertPlaced h key).entries
      (({ id := h.next_id, hash := hash_of key, key := key } : Entry) :: h.entries) := by
  have h1 : List.Perm (insertPlaced h key).entries
      (h.entries ++ [({ id := h.next_id, hash := hash_of key, key := key } : Entry)]) :=
    spliceBefore_perm (insertPlaced_ids key hv) (by simp)
  exact h1.trans (List.perm_append_singleton _ _)

theorem insertPlaced_valid (h : Hashmap) (key : List Nat) (hv : Valid h)
    (habs : ∀ x ∈ h.entries, x.key ≠ key) : Valid (insertPlaced h key) := by
  have hperm := insertPlaced_perm h key hv
  have hnb' : numBuckets (insertPlaced h key) = numBuckets h := by
    simp [insertPlaced, numBuckets]
  have hb0 : bucket_of (numBuckets h)
      (hash_of key) < numBuckets h := Nat.mod_lt _ hv.1
  have hfresh : ∀ x ∈ h.entries,
      x.id ≠ ({ id := h.next_id, hash := hash_of key, key := key } : Entry).id :=
    fun x hx => Nat.ne_of_lt (hv.2.2.2.1 x hx).2
  refine ⟨?_, ?_, ?_, ?_, ?_⟩
  · rw [hnb']
    exact hv.1
  · refine (hperm.map _).nodup_iff.mpr ?_
    rw [List.map_cons]
    refine List.nodup_cons.mpr ⟨?_, hv.2.1⟩
    intro hc
    obtain ⟨x, hx, hxid⟩ := List.mem_map.mp hc
    exact hfresh x hx hxid
  · refine (hperm.map _).nodup_iff.mpr ?_
    rw [List.map_cons]
    refine List.nodup_cons.mpr ⟨?_, hv.2.2.1⟩
    intro hc
    obtain ⟨x, hx, hxid⟩ := List.mem_map.mp hc
    exact habs x hx hxid
  · intro x hx
    rcases List.mem_cons.mp (hperm.mem_iff.mp hx) with rfl | hx
    · exact ⟨rfl, Nat.lt_succ_self _⟩
    · exact ⟨(hv.2.2.2.1 x hx).1, Nat.lt_succ_of_lt (hv.2.2.2.1 x hx).2⟩
  · intro b hb
    rw [hnb'] at hb
    rw [hnb']
    refine slot_spec_of_bpack ?_
    have hlen : h.buckets.length = numBuckets h := rfl
    by_cases hbb : b = bucket_of (numBuckets h) (hash_of key)
    · subst hbb
      have hslotset : (insertPlaced h key).buckets.getD
          (bucket_of (numBuckets h) (hash_of key)) none
          = some ({ id := h.next_id, hash := hash_of key, key := key } : Entry).id := by
        show (h.buckets.set (bucket_of (numBuckets h) (hash_of key))
          (some h.next_id)).getD (bucket_of (numBuckets h) (hash_of key)) none = _
        rw [getD_set_self (by rw [hlen]; exact hb)]
      rw [hslotset]
      have hp0 := valid_bpack hv hb
      cases hslot : h.buckets.getD (bucket_of (numBuckets h) (hash_of key)) none with
      | none =>
        rw [hslot] at hp0
        have hes : (insertPlaced h key).entries
            = h.entries ++ [({ id := h.next_id, hash := hash_of key, key := key } : Entry)] := by
          show spliceBefore _ _ (h.buckets.getD (bucket_of (numBuckets h) (hash_of key)) none) = _
          rw [hslot, spliceBefore_none]
        rw [hes]
        refine ⟨h.entries, { id := h.next_id, hash := hash_of key, key := key }, [], [],
          by simp, rfl, rfl, List.not_mem_nil _, ?_, by simp, by simp⟩
        intro x hx hbx
        exact List.not_mem_nil _ (hp0 x hx hbx)
      | some hid =>
        rw [hslot] at hp0
        obtain ⟨A, hd, B, C, hcur, hhid, hbhd, _, hA, hB, hC⟩ := hp0
        have hCb : ∀ x ∈ C, bucket_of (numBuckets h) x.hash
            ≠ bucket_of (numBuckets h) (hash_of key) := by
          intro x hx hbx
          exact List.not_mem_nil _ (hC x hx hbx)
        have hes : (insertPlaced h key).entries
            = insertBeforeId h.entries
              ({ id := h.next_id, hash := hash_of key, key := key } : Entry) hid := by
          show spliceBefore _ _ (h.buckets.getD (bucket_of (numBuckets h) (hash_of key)) none) = _
          rw [hslot, spliceBefore_some, removeById_append_singleton hfresh]
        have hcur' : h.entries = A ++ hd :: (B ++ C) := by
          rw [hcur]
          simp [List.append_assoc]
        have hA_id : ∀ x ∈ A, x.id ≠ hd.id := (nodup_ids_split (hcur' ▸ hv.2.1)).1
        have hsplit : insertBeforeId h.entries
            ({ id := h.next_id, hash := hash_of key, key := key } : Entry) hid
            = A ++ ({ id := h.next_id, hash := hash_of key, key := key } : Entry)
              :: hd :: (B ++ C) := by
          rw [hcur', ← hhid]
          exact insertBeforeId_split hA_id
        rw [hes, hsplit]
        refine ⟨A, { id := h.next_id, hash := hash_of key, key := key }, hd :: B, C,
          by simp [List.append_assoc], rfl, rfl, List.not_mem_nil _, hA, ?_, ?_⟩
        · intro x hx
          rcases List.mem_cons.mp hx with rfl | hx
          · exact ⟨hbhd, List.not_mem_nil _⟩
          · exact ⟨(hB x hx).1, List.not_mem_nil _⟩
        · intro x hx hbx
          exact absurd hbx (hCb x hx)
    · have hslotne : (insertPlaced h key).buckets.getD b none
          = h.buckets.getD b none := by
        show (h.buckets.set (bucket_of (numBuckets h) (hash_of key))
          (some h.next_id)).getD b none = _
        exact getD_set_ne (fun hc => hbb hc.symm)
      rw [hslotne]
      have hp0 := valid_bpack hv hb
      have hbe : bucket_of (numBuckets h)
          ({ id := h.next_id, hash := hash_of key, key := key } : Entry).hash ≠ b :=
        fun hc => hbb hc.symm
      cases hslot : h.buckets.getD (bucket_of (numBuckets h) (hash_of key)) none with
      | none =>
        have hes : (insertPlaced h key).entries
            = h.entries ++ [({ id := h.next_id, hash := hash_of key, key := key } : Entry)] := by
          show spliceBefore _ _ (h.buckets.getD (bucket_of (numBuckets h) (hash_of key)) none) = _
          rw [hslot, spliceBefore_none]
        rw [hes]
        exact bpack_append hbe hp0
      | some hid =>
        have hes : (insertPlaced h key).entries
            = insertBeforeId h.entries
              ({ id := h.next_id, hash := hash_of key, key := key } : Entry) hid := by
          show spliceBefore _ _ (h.buckets.getD (bucket_of (numBuckets h) (hash_of key)) none) = _
          rw [hslot, spliceBefore_some, removeById_append_singleton hfresh]
        have hpb0 := valid_bpack hv hb0
        rw [hslot] at hpb0
        obtain ⟨A, hd, B, C, hcur, hhid, hbhd, _, hA, hB, hC⟩ := hpb0
        have hhd_mem : hd ∈ h.entries := by
          rw [hcur]
          simp
        have hbt : bucket_of (numBuckets h) hd.hash ≠ b := by
          rw [hbhd]
          exact fun hc => hbb hc.symm
        have := bpack_insert_before (e := { id := h.next_id, hash := hash_of key, key := key })
          hv.2.1 hhd_mem hbt hbe hp0
        rw [hhid] at this
        rw [hes]
        exact this

theorem rethread_grow_spec (h : Hashmap) (n : Nat) (hv : Valid h)
    (hlt : numBuckets h < n) :
    List.Perm (rethread { h with buckets := List.replicate n none }).entries h.entries ∧
    numBuckets (rethread { h with buckets := List.replicate n none }) = n ∧
    (rethread { h with buckets := List.replicate n none }).max_load_factor
      = h.max_load_factor ∧
    (rethread { h with buckets := List.replicate n none }).next_id = h.next_id := by
  have hnb' : numBuckets { h with buckets := List.replicate n none } = n := by
    simp [numBuckets]
  have hpos : 0 < numBuckets { h with buckets := List.replicate n none } := by
    rw [hnb']
    exact Nat.lt_of_le_of_lt (Nat.zero_le _) hlt
  have hcache' : ∀ x ∈ ({ h with buckets := List.replicate n none } : Hashmap).entries,
      x.hash = hash_of x.key := fun x hx => (hv.2.2.2.1 x hx).1
  have hslots' : ∀ b, b < numBuckets { h with buckets := List.replicate n none } →
      ({ h with buckets := List.replicate n none } : Hashmap).buckets.getD b none = none :=
    fun b _ => getD_replicate
  obtain ⟨hperm, hcount, _⟩ := rethread_spec hpos hv.2.1 hcache' hslots'
  exact ⟨hperm, by rw [hcount, hnb'], rfl, rfl⟩

theorem hashmap_rehash_perm (h : Hashmap) (n : Nat) (plan : List Bool) (hv : Valid h) :
    List.Perm (hashmap_rehash h n plan).2.1.entries h.entries ∧
    (hashmap_rehash h n plan).2.1.max_load_factor = h.max_load_factor ∧
    (hashmap_rehash h n plan).2.1.next_id = h.next_id := by
  rcases hashmap_rehash_cases h n plan with ⟨_, heq⟩ | ⟨_, e, plan', heq⟩ |
    ⟨hlt, plan', heq⟩ <;> rw [heq]
  · exact ⟨List.Perm.refl _, rfl, rfl⟩
  · exact ⟨List.Perm.refl _, rfl, rfl⟩
  · obtain ⟨hperm, _, hmlf, hnid⟩ := rethread_grow_spec h n hv hlt
    exact ⟨hperm, hmlf, hnid⟩

theorem impl_rehash_if_needed_perm (h : Hashmap) (n : Nat) (plan : List Bool)
    (hv : Valid h) :
    List.Perm (impl_rehash_if_needed h n plan).2.1.entries h.entries ∧
    (impl_rehash_if_needed h n plan).2.1.max_load_factor = h.max_load_factor ∧
    (impl_rehash_if_needed h n plan).2.1.next_id = h.next_id := by
  rcases impl_rehash_if_needed_spec h n plan with ⟨_, heq⟩ | ⟨_, _, heq⟩ |
    ⟨_, _, _, heq⟩ | ⟨_, _, _, heq⟩ <;> rw [heq]
  · exact ⟨List.Perm.refl _, rfl, rfl⟩
  · exact ⟨List.Perm.refl _, rfl, rfl⟩
  · exact ⟨List.Perm.refl _, rfl, rfl⟩
  · exact hashmap_rehash_perm h _ plan hv

theorem hashmap_insert_cases (h : Hashmap) (key : List Nat) (plan : List Bool) :
    (∃ i, hashmap_cfind (some h) (some key) = some i ∧
      hashmap_insert h (some key) plan
        = ({ inserted := false, pair := some i, errno := none }, h, plan)) ∨
    (hashmap_cfind (some h) (some key) = none ∧
      h.entries.length ≥ MAP_SIZE_MAXIMUM ∧
      hashmap_insert h (some key) plan
        = ({ inserted := false, pair := none, errno := some .EOVERFLOW }, h, plan)) ∨
    (∃ e h' plan',
      hashmap_cfind (some h) (some key) = none ∧
      ¬(h.entries.length ≥ MAP_SIZE_MAXIMUM) ∧
      impl_rehash_if_needed h (h.entries.length + 1) plan = (.error e, h', plan') ∧
      hashmap_insert h (some key) plan
        = ({ inserted := false, pair := none, errno := some e }, h', plan')) ∨
    (∃ h' plan' plan'',
      hashmap_cfind (some h) (some key) = none ∧
      ¬(h.entries.length ≥ MAP_SIZE_MAXIMUM) ∧
      impl_rehash_if_needed h (h.entries.length + 1) plan = (.ok (), h', plan') ∧
      hashmap_insert h (some key) plan
        = ({ inserted := false, pair := none, errno := some .ENOMEM }, h', plan'')) ∨
    (∃ h' plan' plan'',
      hashmap_cfind (some h) (some key) = none ∧
      ¬(h.entries.length ≥ MAP_SIZE_MAXIMUM) ∧
      impl_rehash_if_needed h (h.entries.length + 1) plan = (.ok (), h', plan') ∧
      hashmap_insert h (some key) plan
        = ({ inserted := true, pair := some h'.next_id, errno := none },
           insertPlaced h' key, plan'')) := by
  unfold hashmap_insert
  dsimp only
  cases hf : hashmap_cfind (some h) (some key) with
  | some i => exact Or.inl ⟨i, rfl, rfl⟩
  | none =>
    by_cases hsz : h.entries.length ≥ MAP_SIZE_MAXIMUM
    · rw [if_pos hsz]
      exact Or.inr (Or.inl ⟨rfl, hsz, rfl⟩)
    · rw [if_neg hsz]
      rcases hrif : impl_rehash_if_needed h (h.entries.length + 1) plan with ⟨res, h', plan'⟩
      cases res with
      | error e =>
        exact Or.inr (Or.inr (Or.inl ⟨e, h', plan', rfl, hsz, rfl, rfl⟩))
      | ok u =>
        cases u
        dsimp only
        rcases ha1 : allocStep plan' with ⟨a1, plan2⟩
        dsimp only
        cases a1 with
        | false =>
          rw [if_pos rfl]
          exact Or.inr (Or.inr (Or.inr (Or.inl ⟨h', plan', plan2, rfl, hsz, rfl, rfl⟩)))
        | true =>
          rw [if_neg (by simp)]
          rcases ha2 : allocStep plan2 with ⟨a2, plan3⟩
          dsimp only
          cases a2 with
          | false =>
            rw [if_pos rfl]
            exact Or.inr (Or.inr (Or.inr (Or.inl ⟨h', plan', plan3, rfl, hsz, rfl, rfl⟩)))
          | true =>
            rw [if_neg (by simp)]
            exact Or.inr (Or.inr (Or.inr (Or.inr ⟨h', plan', plan3, rfl, hsz, rfl, rfl⟩)))

theorem hashmap_insert_valid (h : Hashmap) (key : Option (List Nat)) (plan : List Bool)
    (hv : Valid h) : Valid (hashmap_insert h key plan).2.1 := by
  cases key with
  | none => exact hv
  | some key =>
    rcases hashmap_insert_cases h key plan with
      ⟨i, _, heq⟩ | ⟨_, _, heq⟩ | ⟨e, h', plan', _, _, hrif, heq⟩ |
      ⟨h', plan', plan'', _, _, hrif, heq⟩ | ⟨h', plan', plan'', hf, _, hrif, heq⟩
    · rw [heq]
      exact hv
    · rw [heq]
      exact hv
    · rw [heq]
      have hv' := impl_rehash_if_needed_valid h (h.entries.length + 1) plan hv
      rw [hrif] at hv'
      exact hv'
    · rw [heq]
      have hv' := impl_rehash_if_needed_valid h (h.entries.length + 1) plan hv
      rw [hrif] at hv'
      exact hv'
    · rw [heq]
      have hv' := impl_rehash_if_needed_valid h (h.entries.length + 1) plan hv
      rw [hrif] at hv'
      have hperm := impl_rehash_if_needed_perm h (h.entries.length + 1) plan hv
      rw [hrif] at hperm
      have habs0 := cfind_absent_of_none hv hf
      have habs : ∀ x ∈ h'.entries, x.key ≠ key :=
        fun x hx => habs0 x (hperm.1.mem_iff.mp hx)
      exact insertPlaced_valid h' key hv' habs

theorem hashmap_erase_cases (h : Hashmap) (it : Option Nat) :
    (it.bind (fun i => h.entries.find? (idIs i)) = none ∧
      hashmap_erase h it = (.error .EINVAL, h)) ∨
    (∃ e, it.bind (fun i => h.entries.find? (idIs i)) = some e ∧
      hashmap_erase h it
        = (.ok (), { h with
            entries := removeById h.entries e.id
            buckets := eraseBuckets h e })) := by
  unfold hashmap_erase
  cases hres : it.bind (fun i => h.entries.find? (idIs i)) with
  | none => exact Or.inl ⟨rfl, rfl⟩
  | some e => exact Or.inr ⟨e, rfl, rfl⟩

theorem eraseBuckets_length (h : Hashmap) (e : Entry) :
    (eraseBuckets h e).length = h.buckets.length := by
  unfold eraseBuckets
  dsimp only
  split
  · split
    · split
      · exact List.length_set _ _ _
      · exact List.length_set _ _ _
    · exact List.length_set _ _ _
  · rfl

theorem eraseBuckets_getD_ne (h : Hashmap) (e : Entry) {b : Nat}
    (hne : b ≠ bucket_of (numBuckets h) (hash_of e.key)) :
    (eraseBuckets h e).getD b none = h.buckets.getD b none := by
  unfold eraseBuckets
  dsimp only
  split
  · split
    · split
      · exact getD_set_ne (fun hc => hne hc.symm)
      · exact getD_set_ne (fun hc => hne hc.symm)
    · exact getD_set_ne (fun hc => hne hc.symm)
  · rfl

theorem hashmap_erase_valid (h : Hashmap) (it : Option Nat) (hv : Valid h) :
    Valid (hashmap_erase h it).2 := by
  rcases hashmap_erase_cases h it with ⟨_, heq⟩ | ⟨e, hres, heq⟩
  · rw [heq]
    exact hv
  · rw [heq]
    obtain ⟨i, hit, hfind⟩ := Option.bind_eq_some.mp hres
    have he : e ∈ h.entries := List.mem_of_find?_eq_some hfind
    have hecache : e.hash = hash_of e.key := (hv.2.2.2.1 e he).1
    have hsub := removeById_sublist h.entries e.id
    have hnb' : numBuckets { h with
        entries := removeById h.entries e.id
        buckets := eraseBuckets h e } = numBuckets h := eraseBuckets_length h e
    refine ⟨?_, ?_, ?_, ?_, ?_⟩
    · show 0 < (eraseBuckets h e).length
      rw [eraseBuckets_length]
      exact hv.1
    · exact hv.2.1.sublist (hsub.map _)
    · exact hv.2.2.1.sublist (hsub.map _)
    · intro x hx
      exact hv.2.2.2.1 x (hsub.mem hx)
    · intro b hb
      rw [hnb'] at hb
      rw [hnb']
      refine slot_spec_of_bpack ?_
      show BPack (numBuckets h) b [] (removeById h.entries e.id)
        ((eraseBuckets h e).getD b none)
      have hbeq : bucket_of (numBuckets h) e.hash
          = bucket_of (numBuckets h) (hash_of e.key) := by
        rw [hecache]
      by_cases hbb : b = bucket_of (numBuckets h) (hash_of e.key)
      case neg =>
        rw [eraseBuckets_getD_ne h e hbb]
        refine bpack_remove hv.2.1 he ?_ (valid_bpack hv hb)
        intro hc
        exact hbb (by rw [← hc, hbeq])
      case pos =>
        subst hbb
        have hp0 := valid_bpack hv hb
        cases hslot : h.buckets.getD (bucket_of (numBuckets h) (hash_of e.key)) none with
        | none =>
          rw [hslot] at hp0
          exact absurd (hp0 e he hbeq) (List.not_mem_nil _)
        | some hid =>
          rw [hslot] at hp0
          obtain ⟨A, hd, B, C, hcur, hhid, hbhd, _, hA, hB, hC⟩ := hp0
          have hCne : ∀ x ∈ C, bucket_of (numBuckets h) x.hash
              ≠ bucket_of (numBuckets h) (hash_of e.key) :=
            fun x hx hbx => List.not_mem_nil _ (hC x hx hbx)
          have hcur' : h.entries = A ++ hd :: (B ++ C) := by
            rw [hcur]
            simp [List.append_assoc]
          by_cases hdeq : hd.id = e.id
          · have hde : hd = e := id_inj hv.2.1 (by rw [hcur']; simp) he hdeq
            subst hde
            have hAe : ∀ x ∈ A, x.id ≠ hd.id := (nodup_ids_split (hcur' ▸ hv.2.1)).1
            have hstore : storeFrom h.entries hd.id = hd :: (B ++ C) := by
              unfold storeFrom
              rw [hcur', dropWhile_append_of_all (fun x hx => idNot_true.mpr (hAe x hx)),
                dropWhile_cons_of_false (idNot_false.mpr rfl)]
            have hrem : removeById h.entries hd.id = A ++ (B ++ C) := by
              rw [hcur']
              exact removeById_split_nodup (hcur' ▸ hv.2.1)
            have hcond : h.buckets.getD
                (bucket_of (numBuckets h) (hash_of hd.key)) none = some hd.id := by
              rw [hslot, hhid]
            cases B with
            | nil =>
              cases C with
              | nil =>
                have hnext : (storeFrom h.entries hd.id).tail.head? = none := by
                  rw [hstore]
                  simp
                have hbk : (eraseBuckets h hd).getD
                    (bucket_of (numBuckets h) (hash_of hd.key)) none = none := by
                  unfold eraseBuckets
                  dsimp only
                  rw [if_pos hcond, hnext]
                  exact getD_set_self (by rw [show h.buckets.length = numBuckets h from rfl]
                                          exact hb)
                rw [hbk, hrem]
                intro x hx hbx
                rcases List.mem_append.mp hx with hx | hx
                · exact absurd hbx (hA x hx)
                · simp at hx
              | cons c C' =>
                have hnext : (storeFrom h.entries hd.id).tail.head? = some c := by
                  rw [hstore]
                  simp
                have hbk : (eraseBuckets h hd).getD
                    (bucket_of (numBuckets h) (hash_of hd.key)) none = none := by
                  unfold eraseBuckets
                  dsimp only
                  rw [if_pos hcond, hnext]
                  dsimp only
                  rw [if_neg (hCne c (by simp))]
                  exact getD_set_self (by rw [show h.buckets.length = numBuckets h from rfl]
                                          exact hb)
                rw [hbk, hrem]
                intro x hx hbx
                rcases List.mem_append.mp hx with hx | hx
                · exact absurd hbx (hA x hx)
                · exact absurd hbx (hCne x (by simpa using hx))
            | cons b1 B' =>
              have hnext : (storeFrom h.entries hd.id).tail.head? = some b1 := by
                rw [hstore]
                simp
              have hbk : (eraseBuckets h hd).getD
                  (bucket_of (numBuckets h) (hash_of hd.key)) none = some b1.id := by
                unfold eraseBuckets
                dsimp only
                rw [if_pos hcond, hnext]
                dsimp only
                rw [if_pos (hB b1 (by simp)).1]
                exact getD_set_self (by rw [show h.buckets.length = numBuckets h from rfl]
                                        exact hb)
              rw [hbk, hrem]
              refine ⟨A, b1, B', C, by simp, rfl, (hB b1 (by simp)).1, List.not_mem_nil _,
                hA, ?_, ?_⟩
              · intro x hx
                exact ⟨(hB x (by simp [hx])).1, List.not_mem_nil _⟩
              · intro x hx hbx
                exact absurd hbx (hCne x hx)
          · have hcond : ¬(h.buckets.getD
                (bucket_of (numBuckets h) (hash_of e.key)) none = some e.id) := by
              rw [hslot]
              intro hc
              have hc2 : hid = e.id := by injection hc
              exact hdeq (hhid.trans hc2)
            have hbk : (eraseBuckets h e).getD
                (bucket_of (numBuckets h) (hash_of e.key)) none = some hid := by
              unfold eraseBuckets
              dsimp only
              rw [if_neg hcond]
              exact hslot
            rw [hbk]
            have heB : e ∈ B := by
              have hme : e ∈ A ++ hd :: B ++ C := hcur ▸ he
              rcases List.mem_append.mp hme with hm | hm
              · rcases List.mem_append.mp hm with hm | hm
                · exact absurd hbeq (hA e hm)
                · rcases List.mem_cons.mp hm with hm | hm
                  · exact absurd (congrArg Entry.id hm.symm) hdeq
                  · exact hm
              · exact absurd hbeq (hCne e hm)
            obtain ⟨B₁, B₂, rfl⟩ := List.append_of_mem heB
            have hcur2 : h.entries = ((A ++ hd :: B₁) ++ e :: (B₂ ++ C)) := by
              rw [hcur']
              simp [List.append_assoc]
            have hrem : removeById h.entries e.id = (A ++ hd :: B₁) ++ (B₂ ++ C) := by
              rw [hcur2]
              exact removeById_split_nodup (hcur2 ▸ hv.2.1)
            rw [hrem]
            refine ⟨A, hd, B₁ ++ B₂, C, by simp [List.append_assoc], hhid, hbhd,
              List.not_mem_nil _, hA, ?_, ?_⟩
            · intro x hx
              rcases List.mem_append.mp hx with hx | hx
              · exact ⟨(hB x (by simp [hx])).1, List.not_mem_nil _⟩
              · exact ⟨(hB x (by simp [hx])).1, List.not_mem_nil _⟩
            · intro x hx hbx
              exact absurd hbx (hCne x hx)

theorem num_eq_mul_den (a : ℚ) : (a.num : ℚ) = a * (a.den : ℚ) := by
  have hd : ((a.den : ℕ) : ℚ) ≠ 0 := by
    exact_mod_cast a.den_nz
  exact (div_eq_iff hd).mp (Rat.num_div_den a)

theorem qdiv_eq_div (a : ℚ) {b : ℚ} (hb : b ≠ 0) : qdiv a b = a / b := by
  rw [qdiv, Rat.divInt_eq_div]
  have hd1 : ((a.den : ℕ) : ℚ) ≠ 0 := by exact_mod_cast a.den_nz
  have hn2 : ((b.num : ℤ) : ℚ) ≠ 0 := by exact_mod_cast Rat.num_ne_zero.mpr hb
  push_cast
  rw [div_eq_div_iff (mul_ne_zero hn2 hd1) hb]
  rw [num_eq_mul_den a, num_eq_mul_den b]
  ring

theorem qmul_eq_mul (a b : ℚ) : qmul a b = a * b := by
  rw [qmul, Rat.divInt_eq_div]
  have hd1 : ((a.den : ℕ) : ℚ) ≠ 0 := by exact_mod_cast a.den_nz
  have hd2 : ((b.den : ℕ) : ℚ) ≠ 0 := by exact_mod_cast b.den_nz
  push_cast
  rw [div_eq_iff (mul_ne_zero hd1 hd2)]
  rw [num_eq_mul_den a, num_eq_mul_den b]
  ring

theorem qceil_eq_ceil (q : ℚ) : qceil q = ⌈q⌉ := by
  have h2 : ⌊-q⌋ = (-q.num).fdiv (q.den : ℤ) := by
    rw [Rat.floor_def, Rat.neg_num, Rat.neg_den, Int.fdiv_eq_ediv _ (by positivity)]
  rw [qceil, ← h2, Int.floor_neg, neg_neg]

theorem qFourth_eq : qFourth = 1 / 4 := by
  rw [qFourth]
  norm_num [Rat.divInt_eq_div]

theorem hashmap_rehash_error_state (h : Hashmap) (n : Nat) (plan : List Bool)
    (e : CErr) (herr : (hashmap_rehash h n plan).1 = .error e) :
    (hashmap_rehash h n plan).2.1 = h := by
  rcases hashmap_rehash_cases h n plan with ⟨_, heq⟩ | ⟨_, e', plan', heq⟩ |
    ⟨_, plan', heq⟩
  · rw [heq] at herr
    exact absurd herr (by simp)
  · rw [heq]
  · rw [heq] at herr
    exact absurd herr (by simp)

theorem impl_rehash_if_needed_error_state (h : Hashmap) (n : Nat) (plan : List Bool)
    (e : CErr) (herr : (impl_rehash_if_needed h n plan).1 = .error e) :
    (impl_rehash_if_needed h n plan).2.1 = h := by
  rcases impl_rehash_if_needed_spec h n plan with ⟨_, heq⟩ | ⟨_, _, heq⟩ |
    ⟨_, _, _, heq⟩ | ⟨_, _, _, heq⟩
  · rw [heq]
  · rw [heq]
  · rw [heq]
  · rw [heq] at herr ⊢
    exact hashmap_rehash_error_state h _ plan e herr

theorem hashmap_rehash_nb (h : Hashmap) (n : Nat) (plan : List Bool) (hv : Valid h) :
    numBuckets h ≤ numBuckets (hashmap_rehash h n plan).2.1 := by
  rcases hashmap_rehash_cases h n plan with ⟨_, heq⟩ | ⟨_, e', plan', heq⟩ |
    ⟨hlt, plan', heq⟩ <;> rw [heq]
  rw [(rethread_grow_spec h n hv hlt).2.1]
  exact Nat.le_of_lt hlt

theorem impl_rehash_if_needed_nb (h : Hashmap) (n : Nat) (plan : List Bool)
    (hv : Valid h) :
    numBuckets h ≤ numBuckets (impl_rehash_if_needed h n plan).2.1 := by
  rcases impl_rehash_if_needed_spec h n plan with ⟨_, heq⟩ | ⟨_, _, heq⟩ |
    ⟨_, _, _, heq⟩ | ⟨_, _, _, heq⟩ <;> rw [heq]
  exact hashmap_rehash_nb h _ plan hv

theorem key_inj {l : List Entry} (hn : (l.map (fun x => x.key)).Nodup)
    {x y : Entry} (hx : x ∈ l) (hy : y ∈ l) (hxy : x.key = y.key) : x = y :=
  List.inj_on_of_nodup_map hn hx hy hxy

/-! Concrete map states used to evaluate the theorems on real inputs.
They are built only through the public operations, so each is a
reachable state of the C library. -/

/-- C6: for every map and every requested count `n` at most the current
bucket count, `hashmap_rehash` returns success and leaves the whole map
state and the allocation plan untouched (the bucket count never shrinks
through this call). -/
theorem C6_rehash_noop (h : Hashmap) (n : Nat) (plan : List Bool)
    (hle : n ≤ numBuckets h) :
    hashmap_rehash h n plan = (.ok (), h, plan) := by
  unfold hashmap_rehash
  rw [if_pos hle]

theorem C6_rehash_noop_witness :
    3 ≤ numBuckets hashmap_new ∧
    hashmap_rehash hashmap_new 3 [] = (.ok (), hashmap_new, []) :=
  ⟨by decide, C6_rehash_noop hashmap_new 3 [] (by decide)⟩

/-- C10: the query operations on a null map report no error and return
the neutral values (0, empty); `hashmap_bucket_size` of an out-of-range
bucket index on a live map also returns 0. -/
theorem C10_null_queries (h : Hashmap) (b : Nat) (hb : b ≥ numBuckets h) :
    hashmap_size none = 0 ∧
    hashmap_empty none = true ∧
    hashmap_bucket_count none = 0 ∧
    hashmap_load_factor none = 0 ∧
    (∀ b', hashmap_bucket_size none b' = 0) ∧
    hashmap_bucket_size (some h) b = 0 := by
  refine ⟨rfl, rfl, rfl, rfl, fun b' => rfl, ?_⟩
  show (if b ≥ numBuckets h then 0 else (bucketRun h b).length) = 0
  rw [if_pos hb]

theorem C10_null_queries_witness :
    5 ≥ numBuckets hashmap_new ∧ hashmap_bucket_size (some hashmap_new) 5 = 0 :=
  ⟨by decide, (C10_null_queries hashmap_new 5 (by decide)).2.2.2.2.2⟩

/-- C9: the workbook scenario.  A fresh map has 5 buckets and maximum
load factor 1; inserting "Au", "Ag", "Cu", "Pt" gives size 4, bucket
count 5 and load factor 4/5, with the djb2 hash assigning "Au" to
bucket 1, "Ag" to bucket 2, "Cu" to bucket 2 and "Pt" to bucket 0;
setting the maximum load factor to 1/2 then succeeds, grows the bucket
count to 11 and yields load factor 4/11. -/
theorem C9_scenario :
    hashmap_bucket_count (some hashmap_new) = 5 ∧
    hashmap_max_load_factor (some hashmap_new) = 1 ∧
    hashmap_size (some h4map) = 4 ∧
    hashmap_bucket_count (some h4map) = 5 ∧
    hashmap_load_factor (some h4map) = 4 / 5 ∧
    bucket_of 5 (hash_of [65, 117]) = 1 ∧
    bucket_of 5 (hash_of [65, 103]) = 2 ∧
    bucket_of 5 (hash_of [67, 117]) = 2 ∧
    bucket_of 5 (hash_of [80, 116]) = 0 ∧
    (hashmap_max_load_factor_set h4map (1 / 2 : ℚ) []).1 = .ok () ∧
    hashmap_bucket_count
      (some (hashmap_max_load_factor_set h4map (1 / 2 : ℚ) []).2.1) = 11 ∧
    hashmap_load_factor
      (some (hashmap_max_load_factor_set h4map (1 / 2 : ℚ) []).2.1) = 4 / 11 := by
  have e1 : (1 / 2 : ℚ) = Rat.divInt 1 2 := by
    rw [Rat.divInt_eq_div]
    norm_num
  have e2 : (4 / 5 : ℚ) = Rat.divInt 4 5 := by
    rw [Rat.divInt_eq_div]
    norm_num
  have e3 : (4 / 11 : ℚ) = Rat.divInt 4 11 := by
    rw [Rat.divInt_eq_div]
    norm_num
  rw [e1, e2, e3]
  decide

/-- C5 counterexample: a successful growing `hashmap_rehash` sets the
bucket count to exactly the requested number, not to the smallest
configured capacity tier at least that number.  Rehashing a fresh map
to 42 buckets succeeds and yields 42 buckets, while the capacity tier
for 42 is 47. -/
theorem C5_counterexample :
    Valid hashmap_new ∧
    numBuckets hashmap_new < 42 ∧
    (hashmap_rehash hashmap_new 42 []).1 = .ok () ∧
    numBuckets (hashmap_rehash hashmap_new 42 []).2.1 = 42 ∧
    impl_bucket_count_ideal 42 = 47 ∧
    numBuckets (hashmap_rehash hashmap_new 42 []).2.1 ≠ impl_bucket_count_ideal 42 := by
  decide

/-- C4 counterexample: `hashmap_max_load_factor_set` stores the clamped
factor before running the fallible rehash, so an allocation failure
inside the rehash leaves the map with the new factor: the call is not
atomic.  On a five-entry map at load factor 1, lowering the factor to
1/2 with the next allocation failing reports `ENOMEM` yet the stored
maximum load factor has changed. -/
theorem C4_counterexample :
    Valid hC4 ∧
    (hashmap_max_load_factor_set hC4 (Rat.divInt 1 2) [false]).1
      = Except.error CErr.ENOMEM ∧
    ¬((hashmap_max_load_factor_set hC4 (Rat.divInt 1 2) [false]).2.1.max_load_factor
        = hC4.max_load_factor) := by
  decide

/-- C8 counterexample: on success `hashmap_max_load_factor_set` does
not always establish `load_factor ≤ max_load_factor`.  With eleven
entries in five buckets (load factor 11/5), lowering the maximum load
factor from 4 to 2 succeeds without growing (the capacity tier for
⌊11 / 2⌋ = 5 elements is the current 5 buckets), leaving the load
factor 11/5 above the stored maximum 2. -/
theorem C8_counterexample :
    Valid hC8 ∧
    hashmap_size (some hC8) = 11 ∧
    (hashmap_max_load_factor_set hC8 2 []).1 = .ok () ∧
    numBuckets (hashmap_max_load_factor_set hC8 2 []).2.1 = 5 ∧
    (hashmap_max_load_factor_set hC8 2 []).2.1.max_load_factor = 2 ∧
    ¬(hashmap_load_factor (some (hashmap_max_load_factor_set hC8 2 []).2.1)
        ≤ (hashmap_max_load_factor_set hC8 2 []).2.1.max_load_factor) := by
  decide

/-- C5 (amended): for every well-formed map and every `n` strictly
greater than the current bucket count, a successful `hashmap_rehash h n`
sets the bucket count to exactly `n`, preserves the size, keeps every
previously stored entry live with its identity and key unchanged (so
every iterator obtained before the call still dereferences to the same
key and payload), and keeps every previously inserted key findable. -/
theorem C5_rehash_grow (h : Hashmap) (n : Nat) (plan : List Bool) (hv : Valid h)
    (hlt : numBuckets h < n) (hok : (hashmap_rehash h n plan).1 = .ok ()) :
    numBuckets (hashmap_rehash h n plan).2.1 = n ∧
    (hashmap_rehash h n plan).2.1.entries.length = h.entries.length ∧
    ∀ e ∈ h.entries, e ∈ (hashmap_rehash h n plan).2.1.entries ∧
      ∃ i, hashmap_cfind (some (hashmap_rehash h n plan).2.1) (some e.key) = some i := by
  have hv' := hashmap_rehash_valid h n plan hv
  rcases hashmap_rehash_cases h n plan with ⟨hle, heq⟩ | ⟨_, e, plan', heq⟩ |
    ⟨_, plan', heq⟩
  · exact absurd hle (Nat.not_le_of_lt hlt)
  · rw [heq] at hok
    exact absurd hok (by simp)
  · obtain ⟨hperm, hnb, _, _⟩ := rethread_grow_spec h n hv hlt
    rw [heq] at hv' ⊢
    refine ⟨hnb, hperm.length_eq, ?_⟩
    intro e he
    have he' : e ∈ (rethread { h with buckets := List.replicate n none }).entries :=
      hperm.mem_iff.mpr he
    exact ⟨he', cfind_complete hv' he' rfl⟩

theorem C5_rehash_grow_witness :
    Valid wMap ∧ numBuckets wMap < 7 ∧ (hashmap_rehash wMap 7 []).1 = .ok () ∧
    (numBuckets (hashmap_rehash wMap 7 []).2.1 = 7 ∧
      (hashmap_rehash wMap 7 []).2.1.entries.length = wMap.entries.length ∧
      ∀ e ∈ wMap.entries, e ∈ (hashmap_rehash wMap 7 []).2.1.entries ∧
        ∃ i, hashmap_cfind (some (hashmap_rehash wMap 7 []).2.1) (some e.key) = some i) :=
  ⟨by decide, by decide, by decide,
    C5_rehash_grow wMap 7 [] (by decide) (by decide) (by decide)⟩

/-- C1: on a well-formed map, `hashmap_cfind` walks exactly the bucket
run of the query hash's bucket (the walk stops at the first entry whose
bucket differs or at store end) and returns the first entry whose
cached hash equals the query hash and whose key is byte-for-byte equal;
it returns an iterator to some entry exactly when a matching entry is
in the walked run, it returns the end sentinel exactly when no live
entry carries the key, and a null map or a null key also yields the end
sentinel. -/
theorem C1_find_characterization (h : Hashmap) (key : List Nat) (hv : Valid h) :
    hashmap_cfind (some h) (some key)
      = ((bucketRun h (bucket_of (numBuckets h) (hash_of key))).find?
          (fun e => hash_of key = e.hash ∧ key = e.key)).map (fun e => e.id) ∧
    (∀ i, hashmap_cfind (some h) (some key) = some i →
      ∃ e ∈ bucketRun h (bucket_of (numBuckets h) (hash_of key)),
        e.id = i ∧ e.hash = hash_of key ∧ e.key = key) ∧
    (∀ e ∈ bucketRun h (bucket_of (numBuckets h) (hash_of key)),
      e.hash = hash_of key → e.key = key →
      ∃ i, hashmap_cfind (some h) (some key) = some i) ∧
    ((∀ e ∈ h.entries, e.key ≠ key) ↔ hashmap_cfind (some h) (some key) = none) ∧
    hashmap_cfind none (some key) = none ∧
    hashmap_cfind (some h) none = none := by
  refine ⟨cfind_eq_run h key, ?_, ?_, ⟨cfind_none_of_absent, cfind_absent_of_none hv⟩,
    rfl, rfl⟩
  · intro i hi
    exact cfind_some_sound hi
  · intro e he h1 h2
    exact cfind_some_of_match he h1 h2

theorem C1_find_characterization_witness :
    Valid wMap ∧
    ((∀ e ∈ wMap.entries, e.key ≠ [67, 117]) ↔
      hashmap_cfind (some wMap) (some [67, 117]) = none) :=
  ⟨by decide, (C1_find_characterization wMap [67, 117] (by decide)).2.2.2.1⟩

/-- C3: on a well-formed map, once an insert of `key` has succeeded,
inserting the same key again returns `inserted = false` together with
the very pair the original insert returned, performs no mutation (the
map state is returned unchanged), consumes no allocation, and reports
no error. -/
theorem C3_insert_idempotent (h : Hashmap) (key : List Nat) (plan plan1 : List Bool)
    (hv : Valid h) (r1 : InsertRet) (h1 : Hashmap) (plan1' : List Bool)
    (hfirst : hashmap_insert h (some key) plan = (r1, h1, plan1'))
    (hins : r1.inserted = true) :
    hashmap_insert h1 (some key) plan1
      = ({ inserted := false, pair := r1.pair, errno := none }, h1, plan1) := by
  rcases hashmap_insert_cases h key plan with
    ⟨i, _, heq⟩ | ⟨_, _, heq⟩ | ⟨e, h', plan', _, _, hrif, heq⟩ |
    ⟨h', plan', plan'', _, _, hrif, heq⟩ | ⟨h', plan', plan'', hf, _, hrif, heq⟩
  · rw [heq] at hfirst
    have hr1 : r1 = { inserted := false, pair := some i, errno := none } :=
      (congrArg (fun p => p.1) hfirst).symm
    rw [hr1] at hins
    exact absurd hins (by simp)
  · rw [heq] at hfirst
    have hr1 : r1 = { inserted := false, pair := none, errno := some .EOVERFLOW } :=
      (congrArg (fun p => p.1) hfirst).symm
    rw [hr1] at hins
    exact absurd hins (by simp)
  · rw [heq] at hfirst
    have hr1 : r1 = { inserted := false, pair := none, errno := some e } :=
      (congrArg (fun p => p.1) hfirst).symm
    rw [hr1] at hins
    exact absurd hins (by simp)
  · rw [heq] at hfirst
    have hr1 : r1 = { inserted := false, pair := none, errno := some .ENOMEM } :=
      (congrArg (fun p => p.1) hfirst).symm
    rw [hr1] at hins
    exact absurd hins (by simp)
  · rw [heq] at hfirst
    have hr1 : r1 = { inserted := true, pair := some h'.next_id, errno := none } :=
      (congrArg (fun p => p.1) hfirst).symm
    have hh1 : h1 = insertPlaced h' key :=
      (congrArg (fun p => p.2.1) hfirst).symm
    have hv' : Valid h' := by
      have := impl_rehash_if_needed_valid h (h.entries.length + 1) plan hv
      rw [hrif] at this
      exact this
    have hperm' : List.Perm h'.entries h.entries := by
      have := impl_rehash_if_needed_perm h (h.entries.length + 1) plan hv
      rw [hrif] at this
      exact this.1
    have habs : ∀ x ∈ h'.entries, x.key ≠ key :=
      fun x hx => cfind_absent_of_none hv hf x (hperm'.mem_iff.mp hx)
    have hv1 : Valid (insertPlaced h' key) := insertPlaced_valid h' key hv' habs
    have hmem : ({ id := h'.next_id, hash := hash_of key, key := key } : Entry)
        ∈ (insertPlaced h' key).entries :=
      (insertPlaced_perm h' key hv').mem_iff.mpr (List.mem_cons_self _ _)
    obtain ⟨i, hi⟩ := cfind_complete hv1 hmem rfl
    have hid : i = h'.next_id := by
      obtain ⟨e', hrun, hei, _, hek⟩ := cfind_some_sound hi
      have he' : e' ∈ (insertPlaced h' key).entries :=
        (bucketRun_sublist _ _).mem hrun
      have : e' = ({ id := h'.next_id, hash := hash_of key, key := key } : Entry) :=
        key_inj hv1.2.2.1 he' hmem hek
      rw [← hei, this]
    rw [hid] at hi
    rw [hh1, hr1]
    show hashmap_insert (insertPlaced h' key) (some key) plan1 = _
    unfold hashmap_insert
    dsimp only
    rw [hi]

theorem C3_insert_idempotent_witness :
    Valid hashmap_new ∧
    (hashmap_insert hashmap_new (some [65, 117]) []).1.inserted = true ∧
    hashmap_insert (hashmap_insert hashmap_new (some [65, 117]) []).2.1
        (some [65, 117]) []
      = ({ inserted := false,
           pair := (hashmap_insert hashmap_new (some [65, 117]) []).1.pair,
           errno := none },
         (hashmap_insert hashmap_new (some [65, 117]) []).2.1, []) :=
  ⟨by decide, by decide,
    C3_insert_idempotent hashmap_new [65, 117] [] [] (by decide)
      (hashmap_insert hashmap_new (some [65, 117]) []).1
      (hashmap_insert hashmap_new (some [65, 117]) []).2.1
      (hashmap_insert hashmap_new (some [65, 117]) []).2.2 rfl (by decide)⟩

/-- C4 (amended): failure effects of the mutating operations.  A failing
`hashmap_rehash` or `hashmap_reserve` leaves the map exactly as it was.
A `hashmap_insert` failing with `ENOMEM` leaves the stored entries (up
to store order), the size and the maximum load factor unchanged, but
may already have grown the bucket array.  A failing
`hashmap_max_load_factor_set` leaves entries and buckets unchanged but
has already stored the clamped new factor: the call is not atomic in
the maximum load factor. -/
theorem C4_failure_effects (h : Hashmap) (hv : Valid h) :
    (∀ n plan e, (hashmap_rehash h n plan).1 = .error e →
      (hashmap_rehash h n plan).2.1 = h) ∧
    (∀ n plan e, (hashmap_reserve h n plan).1 = .error e →
      (hashmap_reserve h n plan).2.1 = h) ∧
    (∀ key plan, (hashmap_insert h (some key) plan).1.errno = some CErr.ENOMEM →
      List.Perm (hashmap_insert h (some key) plan).2.1.entries h.entries ∧
      (hashmap_insert h (some key) plan).2.1.max_load_factor = h.max_load_factor ∧
      numBuckets h ≤ numBuckets (hashmap_insert h (some key) plan).2.1) ∧
    (∀ z plan e, (hashmap_max_load_factor_set h z plan).1 = .error e →
      (hashmap_max_load_factor_set h z plan).2.1.entries = h.entries ∧
      (hashmap_max_load_factor_set h z plan).2.1.buckets = h.buckets ∧
      (hashmap_max_load_factor_set h z plan).2.1.max_load_factor
        = (if z < qFourth then qFourth else z)) := by
  refine ⟨?_, ?_, ?_, ?_⟩
  · intro n plan e herr
    exact hashmap_rehash_error_state h n plan e herr
  · intro n plan e herr
    unfold hashmap_reserve at herr ⊢
    dsimp only at herr ⊢
    split at herr
    · exact absurd herr (by simp)
    · rw [if_neg (by assumption)]
      exact impl_rehash_if_needed_error_state h n plan e herr
  · intro key plan herr
    rcases hashmap_insert_cases h key plan with
      ⟨i, _, heq⟩ | ⟨_, _, heq⟩ | ⟨e, h', plan', _, _, hrif, heq⟩ |
      ⟨h', plan', plan'', _, _, hrif, heq⟩ | ⟨h', plan', plan'', hf, _, hrif, heq⟩
    · rw [heq] at herr
      exact absurd herr (by simp)
    · rw [heq] at herr
      exact absurd herr (by simp)
    · have hst := impl_rehash_if_needed_error_state h (h.entries.length + 1) plan e
        (by rw [hrif])
      rw [hrif] at hst
      rw [heq, hst]
      exact ⟨List.Perm.refl _, rfl, Nat.le_refl _⟩
    · have hperm := impl_rehash_if_needed_perm h (h.entries.length + 1) plan hv
      have hnb := impl_rehash_if_needed_nb h (h.entries.length + 1) plan hv
      rw [hrif] at hperm hnb
      rw [heq]
      exact ⟨hperm.1, hperm.2.1, hnb⟩
    · rw [heq] at herr
      exact absurd herr (by simp)
  · intro z plan e herr
    unfold hashmap_max_load_factor_set at herr ⊢
    dsimp only at herr ⊢
    have hst := impl_rehash_if_needed_error_state
      { h with max_load_factor := if z < qFourth then qFourth else z }
      (hashmap_size (some { h with max_load_factor := if z < qFourth then qFourth else z }))
      plan e herr
    rw [hst]
    exact ⟨rfl, rfl, rfl⟩

theorem C4_failure_effects_witness :
    Valid hC4 ∧
    ((hashmap_max_load_factor_set hC4 (Rat.divInt 1 2) [false]).2.1.entries
        = hC4.entries ∧
      (hashmap_max_load_factor_set hC4 (Rat.divInt 1 2) [false]).2.1.buckets
        = hC4.buckets ∧
      (hashmap_max_load_factor_set hC4 (Rat.divInt 1 2) [false]).2.1.max_load_factor
        = (if Rat.divInt 1 2 < qFourth then qFourth else Rat.divInt 1 2)) :=
  ⟨by decide,
    (C4_failure_effects hC4 (by decide)).2.2.2 (Rat.divInt 1 2) [false] CErr.ENOMEM
      (by decide)⟩

/-- C8 (amended): `hashmap_max_load_factor_set z` always stores exactly
the clamped factor (0.25 when `z < 0.25`, otherwise `z`); when the
capacity tier required for the current element count at the new factor
does not exceed the current bucket count (and the float-precision guard
passes) the call is a successful no-op apart from the stored factor;
when a successful call does grow, the new bucket count is exactly that
required capacity tier; and on success the load factor ends up at or
below the new maximum exactly when the element count is at most the new
maximum times the resulting bucket count — which a single growth step
does not guarantee in general. -/
theorem C8_mlf_set_clamp (h : Hashmap) (z : ℚ) (plan : List Bool) (hv : Valid h) :
    (hashmap_max_load_factor_set h z plan).2.1.max_load_factor
      = (if z < qFourth then qFourth else z) ∧
    (¬(qdiv (h.entries.length : ℚ) (if z < qFourth then qFourth else z)
        > FLT_EXACT_MAX) →
      requiredBuckets { h with max_load_factor := if z < qFourth then qFourth else z }
          h.entries.length ≤ numBuckets h →
      hashmap_max_load_factor_set h z plan
        = (.ok (), { h with max_load_factor := if z < qFourth then qFourth else z },
           plan)) ∧
    ((hashmap_max_load_factor_set h z plan).1 = .ok () →
      numBuckets h < numBuckets (hashmap_max_load_factor_set h z plan).2.1 →
      numBuckets (hashmap_max_load_factor_set h z plan).2.1
        = requiredBuckets
            { h with max_load_factor := if z < qFourth then qFourth else z }
            h.entries.length) ∧
    ((hashmap_max_load_factor_set h z plan).1 = .ok () →
      (h.entries.length : ℚ)
          ≤ (if z < qFourth then qFourth else z)
            * (numBuckets (hashmap_max_load_factor_set h z plan).2.1 : ℚ) →
      hashmap_load_factor (some (hashmap_max_load_factor_set h z plan).2.1)
        ≤ (if z < qFourth then qFourth else z)) := by
  have hcall : hashmap_max_load_factor_set h z plan
      = impl_rehash_if_needed
          { h with max_load_factor := if z < qFourth then qFourth else z }
          h.entries.length plan := rfl
  have hv' : Valid { h with max_load_factor := if z < qFourth then qFourth else z } :=
    valid_mlf h _ hv
  have hperm := impl_rehash_if_needed_perm
    { h with max_load_factor := if z < qFourth then qFourth else z }
    h.entries.length plan hv'
  refine ⟨?_, ?_, ?_, ?_⟩
  · rw [hcall]
    exact hperm.2.1
  · intro hguard hreq
    rw [hcall]
    rcases impl_rehash_if_needed_spec
        { h with max_load_factor := if z < qFourth then qFourth else z }
        h.entries.length plan with ⟨hg, _⟩ | ⟨_, _, heq⟩ | ⟨_, hlt, _, _⟩ |
      ⟨_, hlt, _, _⟩
    · exact absurd hg hguard
    · exact heq
    · exact absurd hreq (Nat.not_le_of_lt hlt)
    · exact absurd hreq (Nat.not_le_of_lt hlt)
  · intro hok hgrow
    rw [hcall] at hok hgrow ⊢
    rcases impl_rehash_if_needed_spec
        { h with max_load_factor := if z < qFourth then qFourth else z }
        h.entries.length plan with ⟨_, heq⟩ | ⟨_, _, heq⟩ | ⟨_, _, _, heq⟩ |
      ⟨_, hlt, _, heq⟩
    · rw [heq] at hok
      exact absurd hok (by simp)
    · rw [heq] at hgrow
      exact absurd hgrow (Nat.lt_irrefl _)
    · rw [heq] at hok
      exact absurd hok (by simp)
    · rw [heq] at hok hgrow ⊢
      rcases hashmap_rehash_cases
          { h with max_load_factor := if z < qFourth then qFourth else z }
          (requiredBuckets
            { h with max_load_factor := if z < qFourth then qFourth else z }
            h.entries.length) plan with ⟨_, heq'⟩ | ⟨_, e, plan', heq'⟩ |
        ⟨hlt', plan', heq'⟩
      · rw [heq'] at hgrow
        exact absurd hgrow (Nat.lt_irrefl _)
      · rw [heq'] at hok
        exact absurd hok (by simp)
      · rw [heq']
        exact (rethread_grow_spec _ _ hv' hlt').2.1
  · intro hok hle
    rw [hcall] at hle ⊢
    have hvres := impl_rehash_if_needed_valid
      { h with max_load_factor := if z < qFourth then qFourth else z }
      h.entries.length plan hv'
    have hlen : (impl_rehash_if_needed
        { h with max_load_factor := if z < qFourth then qFourth else z }
        h.entries.length plan).2.1.entries.length = h.entries.length :=
      hperm.1.length_eq
    have hnbpos : (0 : ℚ) < ((numBuckets (impl_rehash_if_needed
        { h with max_load_factor := if z < qFourth then qFourth else z }
        h.entries.length plan).2.1 : Nat) : ℚ) := by
      exact_mod_cast hvres.1
    show qdiv _ _ ≤ _
    rw [qdiv_eq_div _ (ne_of_gt hnbpos), hlen]
    exact (div_le_iff₀ hnbpos).mpr hle

theorem C8_mlf_set_clamp_witness :
    Valid hC8 ∧
    (hashmap_max_load_factor_set hC8 2 []).2.1.max_load_factor
      = (if (2 : ℚ) < qFourth then qFourth else 2) :=
  ⟨by decide, (C8_mlf_set_clamp hC8 2 [] (by decide)).1⟩

/-- C7: on a well-formed map, `hashmap_erase` fails with `EINVAL` and
leaves the map unchanged when the iterator references no live entry
(in particular for the null/end iterator); erasing a live entry
succeeds, removes exactly that entry from the store, makes a subsequent
find of its key return the end sentinel, and when the erased entry was
its bucket's head the slot advances to the next entry in store order if
that entry still belongs to the same bucket and is emptied otherwise. -/
theorem C7_erase (h : Hashmap) (hv : Valid h) :
    (∀ it, it.bind (fun i => h.entries.find? (idIs i)) = none →
      hashmap_erase h it = (.error .EINVAL, h)) ∧
    hashmap_erase h none = (.error .EINVAL, h) ∧
    ∀ e ∈ h.entries,
      (hashmap_erase h (some e.id)).1 = .ok () ∧
      (hashmap_erase h (some e.id)).2.entries = removeById h.entries e.id ∧
      hashmap_cfind (some (hashmap_erase h (some e.id)).2) (some e.key) = none ∧
      (h.buckets.getD (bucket_of (numBuckets h) (hash_of e.key)) none = some e.id →
        (hashmap_erase h (some e.id)).2.buckets.getD
            (bucket_of (numBuckets h) (hash_of e.key)) none
          = match (storeFrom h.entries e.id).tail.head? with
            | some ne =>
              if bucket_of (numBuckets h) ne.hash
                  = bucket_of (numBuckets h) (hash_of e.key)
              then some ne.id else none
            | none => none) := by
  refine ⟨?_, rfl, ?_⟩
  · intro it hnone
    rcases hashmap_erase_cases h it with ⟨_, heq⟩ | ⟨e, hres, heq⟩
    · exact heq
    · rw [hnone] at hres
      exact absurd hres (by simp)
  · intro e he
    have hfind : h.entries.find? (idIs e.id) = some e := by
      cases hf : h.entries.find? (idIs e.id) with
      | none =>
        exact absurd (idIs_true.mpr rfl) (List.find?_eq_none.mp hf e he)
      | some x =>
        have hx : x = e :=
          id_inj hv.2.1 (List.mem_of_find?_eq_some hf) he
            (idIs_true.mp (List.find?_some hf))
        rw [hx]
    have hbind : (some e.id).bind (fun i => h.entries.find? (idIs i)) = some e := hfind
    rcases hashmap_erase_cases h (some e.id) with ⟨hn, _⟩ | ⟨e', hres, heq⟩
    · rw [hbind] at hn
      exact absurd hn (by simp)
    · have he' : e' = e := by
        rw [hbind] at hres
        exact (Option.some.inj hres).symm
      rw [he'] at heq
      rw [heq]
      refine ⟨rfl, rfl, ?_, ?_⟩
      · refine cfind_none_of_absent ?_
        intro x hx hkey
        have hx' := List.mem_filter.mp hx
        have hxe : x = e := key_inj hv.2.2.1 hx'.1 he hkey
        have : x.id ≠ e.id := idNot_true.mp hx'.2
        exact this (hxe ▸ rfl)
      · intro hslot
        have hb : bucket_of (numBuckets h) (hash_of e.key) < h.buckets.length :=
          Nat.mod_lt _ hv.1
        show (eraseBuckets h e).getD _ none = _
        unfold eraseBuckets
        dsimp only
        rw [if_pos hslot]
        cases hhead : (storeFrom h.entries e.id).tail.head? with
        | none => exact getD_set_self hb
        | some ne =>
          dsimp only
          by_cases hbne : bucket_of (numBuckets h) ne.hash
              = bucket_of (numBuckets h) (hash_of e.key)
          · rw [if_pos hbne, if_pos hbne]
            exact getD_set_self hb
          · rw [if_neg hbne, if_neg hbne]
            exact getD_set_self hb

theorem C7_erase_witness :
    Valid wMap ∧
    ({ id := 0, hash := hash_of [65, 117], key := [65, 117] } : Entry) ∈ wMap.entries ∧
    ((hashmap_erase wMap (some 0)).1 = .ok () ∧
     (hashmap_erase wMap (some 0)).2.entries = removeById wMap.entries 0 ∧
     hashmap_cfind (some (hashmap_erase wMap (some 0)).2) (some [65, 117]) = none ∧
     (wMap.buckets.getD (bucket_of (numBuckets wMap) (hash_of [65, 117])) none
         = some 0 →
       (hashmap_erase wMap (some 0)).2.buckets.getD
           (bucket_of (numBuckets wMap) (hash_of [65, 117])) none
         = match (storeFrom wMap.entries 0).tail.head? with
           | some ne =>
             if bucket_of (numBuckets wMap) ne.hash
                 = bucket_of (numBuckets wMap) (hash_of [65, 117])
             then some ne.id else none
           | none => none)) :=
  ⟨by decide, by decide,
    (C7_erase wMap (by decide)).2.2
      { id := 0, hash := hash_of [65, 117], key := [65, 117] } (by decide)⟩

theorem claimInvariant_of_valid {h : Hashmap} (hv : Valid h) : ClaimInvariant h := by
  refine ⟨?_, hv.2.2.1⟩
  intro b hb
  obtain ⟨A, C, hsplit, hA, hC, hrun⟩ := bucketRun_split_of_valid hv hb
  refine ⟨?_, ⟨A, C, hsplit, hrun, hA, hC⟩,
    fun e he hbe => mem_bucketRun_of_valid hv hb he hbe⟩
  intro hid hslot
  have hfind := (hv.2.2.2.2 b hb).1
  rw [hslot] at hfind
  obtain ⟨x, hx, hxid⟩ := Option.map_eq_some'.mp hfind.symm
  cases hrun0 : bucketRun h b with
  | nil =>
    have hnone : h.entries.find? (inB (numBuckets h) b) = none := by
      rw [List.find?_eq_none]
      intro y hy hc
      have hyb := inB_true.mp hc
      rw [hsplit, hrun0] at hy
      rcases List.mem_append.mp hy with hm | hm
      · rcases List.mem_append.mp hm with hm | hm
        · exact hA y hm hyb
        · simp at hm
      · exact hC y hm hyb
    rw [hnone] at hx
    exact absurd hx (by simp)
  | cons r0 rest =>
    have hr0run : r0 ∈ bucketRun h b := by
      rw [hrun0]
      exact List.mem_cons_self _ _
    have hx' : h.entries.find? (inB (numBuckets h) b) = some r0 := by
      have harg : A ++ (r0 :: rest) ++ C = A ++ r0 :: (rest ++ C) := by
        simp [List.append_assoc]
      rw [hsplit, hrun0, harg,
        find?_prefix_false (fun y hy => inB_false.mpr (hA y hy)),
        List.find?_cons_of_pos _ (inB_true.mpr (hrun r0 hr0run))]
    have hxr : r0 = x := by
      rw [hx'] at hx
      exact Option.some.inj hx
    exact ⟨r0, rfl, hxr ▸ hxid, hrun r0 hr0run⟩

/-- C2: the specification's between-calls invariant holds in every
well-formed state and is preserved by each public operation: insert,
erase, clear, rehash, reserve and the maximum-load-factor setter. -/
theorem C2_invariant_preserved (h : Hashmap) (hv : Valid h) :
    ClaimInvariant h ∧
    (∀ key plan, ClaimInvariant (hashmap_insert h key plan).2.1) ∧
    (∀ it, ClaimInvariant (hashmap_erase h it).2) ∧
    ClaimInvariant (hashmap_clear h) ∧
    (∀ n plan, ClaimInvariant (hashmap_rehash h n plan).2.1) ∧
    (∀ n plan, ClaimInvariant (hashmap_reserve h n plan).2.1) ∧
    (∀ z plan, ClaimInvariant (hashmap_max_load_factor_set h z plan).2.1) :=
  ⟨claimInvariant_of_valid hv,
   fun key plan => claimInvariant_of_valid (hashmap_insert_valid h key plan hv),
   fun it => claimInvariant_of_valid (hashmap_erase_valid h it hv),
   claimInvariant_of_valid (hashmap_clear_valid h hv),
   fun n plan => claimInvariant_of_valid (hashmap_rehash_valid h n plan hv),
   fun n plan => claimInvariant_of_valid (hashmap_reserve_valid h n plan hv),
   fun z plan => claimInvariant_of_valid (hashmap_max_load_factor_set_valid h z plan hv)⟩

theorem C2_invariant_preserved_witness :
    Valid wMap ∧ ClaimInvariant wMap :=
  ⟨by decide, (C2_invariant_preserved wMap (by decide)).1⟩
